import Mathlib

/-!
# ConfAI — verification of the context-assembly / generation pipeline

Shallow embedding of the core algorithms of the ConfAI repository:

* `app/services/embedding_service.py` — `chunk_text`,
  `process_context_files`, `search_context`;
* `app/routes/transcription.py` — `start_stream`, `append_content`,
  `finalize_stream`;
* `app/routes/admin.py` — `upload_context_files`, `move_context_file`,
  `delete_context_file`;
* `app/services/llm_service.py` — the Perplexity message adapter, the
  Grok/Perplexity streaming-usage estimation, and the deferred
  usage-accessor behaviour of the Claude and Gemini streaming adapters.

Texts are embedded as `List Char` (Python `len`/indexing on `str` counts
code points, which `List Char` mirrors).  Machine integers do not occur:
all the Python arithmetic here is arbitrary-precision `int`, embedded as
`Int`/`Nat`.
-/

namespace ConfAI

/-! ## Python string primitives

`pySlice` is Python's `s[a:b]` (negative indices count from the end,
then both bounds are clamped to `[0, len]`); `rfind` is `str.rfind(c)`
for a single-character needle (last index, `-1` if absent); `pyStrip`
is `str.strip()` restricted to whitespace. -/

/-- Resolve one Python slice bound against a string of length `len`. -/
def pyIdx (len : Nat) (i : Int) : Nat :=
  let j : Int := if i < 0 then i + len else i
  (max 0 (min j (len : Int))).toNat

/-- Python `xs[a:b]` on a list of characters. -/
def pySlice (xs : List Char) (a b : Int) : List Char :=
  (xs.take (pyIdx xs.length b)).drop (pyIdx xs.length a)

/-- Python `xs.rfind(c)`: the largest index holding `c`, else `-1`. -/
def rfind (xs : List Char) (c : Char) : Int :=
  match xs.reverse.findIdx? (fun a => a == c) with
  | some k => (xs.length : Int) - 1 - k
  | none => -1

/-- Python `str.strip()` (whitespace from both ends). -/
def pyStrip (xs : List Char) : List Char :=
  ((xs.dropWhile Char.isWhitespace).reverse.dropWhile Char.isWhitespace).reverse

/-! ## The chunker — `EmbeddingService.chunk_text`

`embedding_service.py` lines 178–220.  The Python is a `while start <
text_length` loop; its body is split here into `chunkEnd` (the window
end after the sentence-boundary adjustment) and one recursive step.
The loop is not structurally recursive — `start = end -
chunk_overlap` — so the embedding is fuel-indexed and returns `none`
when the fuel runs out; `chunk_text` supplies `text.length + 1` fuel,
enough whenever every iteration advances `start`. -/

/-- One chunk as built by `chunk_text` (the dict appended to `chunks`). -/
structure Chunk where
  id : String
  text : List Char
  filename : String
  category : String
  chunk_id : Nat
  start : Int
  endPos : Int
  deriving DecidableEq

/-- The window end for the chunk starting at `start`:
`end = start + chunk_size`, then — if that is not end-of-text — moved
back to just past the last `'.'`/`'\n'` of the window when that break
lies past the window's midpoint (`break_point > chunk_size // 2`). -/
def chunkEnd (chunk_size : Nat) (text : List Char) (start : Int) : Int :=
  let e : Int := start + chunk_size
  let ct := pySlice text start e
  if e < (text.length : Int) then
    let break_point : Int := max (rfind ct '.') (rfind ct '\n')
    if break_point > ((chunk_size / 2 : Nat) : Int) then start + break_point + 1
    else e
  else e

/-- The `while start < text_length` loop of `chunk_text`, fuel-indexed. -/
def chunkLoop (chunk_size chunk_overlap : Nat) (text : List Char)
    (filename category : String) : Nat → Int → Nat → Option (List Chunk)
  | 0, start, _ =>
    if start < (text.length : Int) then none else some []
  | fuel + 1, start, chunk_id =>
    if start < (text.length : Int) then
      let e := chunkEnd chunk_size text start
      let c : Chunk :=
        { id := filename ++ "_chunk_" ++ toString chunk_id
          text := pyStrip (pySlice text start e)
          filename := filename
          category := category
          chunk_id := chunk_id
          start := start
          endPos := e }
      match chunkLoop chunk_size chunk_overlap text filename category fuel
          (e - chunk_overlap) (chunk_id + 1) with
      | some rest => some (c :: rest)
      | none => none
    else some []

/-- Python `EmbeddingService.chunk_text(text, filename, category)` under
settings `(chunk_size, chunk_overlap)`.  `some` of the chunk list when
the loop finishes within `text.length + 1` iterations (it never needs
more when it terminates at all, since then every iteration advances
`start` by at least one), `none` when the loop does not make progress. -/
def chunk_text (chunk_size chunk_overlap : Nat) (text : List Char)
    (filename category : String) : Option (List Chunk) :=
  chunkLoop chunk_size chunk_overlap text filename category
    (text.length + 1) 0 0

/-! ### Chunker lemmas -/

theorem findIdx?_lt_len {α : Type} (p : α → Bool) :
    ∀ (l : List α) (i k : Nat), l.findIdx? p i = some k → k < i + l.length := by
  intro l
  induction l with
  | nil => intro i k h; simp [List.findIdx?_nil] at h
  | cons x xs ih =>
    intro i k h
    rw [List.findIdx?_cons] at h
    by_cases hx : p x = true
    · rw [if_pos hx] at h
      injection h with h
      simp only [List.length_cons]
      omega
    · rw [if_neg hx] at h
      have := ih (i + 1) k h
      simp only [List.length_cons]
      omega

theorem rfind_lt_length (xs : List Char) (c : Char) :
    rfind xs c < (xs.length : Int) := by
  rw [rfind]
  cases h : xs.reverse.findIdx? (fun a => a == c) with
  | none => simp only; omega
  | some k =>
    have hk := findIdx?_lt_len (fun a => a == c) xs.reverse 0 k h
    rw [List.length_reverse] at hk
    simp only
    omega

theorem pyIdx_of_nonneg (len : Nat) (i : Int) (hi : 0 ≤ i) :
    (pyIdx len i : Int) = min i len := by
  simp only [pyIdx]
  omega

theorem pySlice_length_le (xs : List Char) (a b : Int) (ha : 0 ≤ a) (hb : a ≤ b) :
    ((pySlice xs a b).length : Int) ≤ b - a := by
  have h1 := pyIdx_of_nonneg xs.length a ha
  have h2 := pyIdx_of_nonneg xs.length b (le_trans ha hb)
  simp only [pySlice, List.length_drop, List.length_take]
  omega

theorem pyStrip_length_le (xs : List Char) : (pyStrip xs).length ≤ xs.length := by
  simp only [pyStrip, List.length_reverse]
  calc ((xs.dropWhile Char.isWhitespace).reverse.dropWhile Char.isWhitespace).length
      ≤ (xs.dropWhile Char.isWhitespace).reverse.length :=
        (List.dropWhile_sublist _).length_le
    _ = (xs.dropWhile Char.isWhitespace).length := List.length_reverse _
    _ ≤ xs.length := (List.dropWhile_sublist _).length_le

/-- The window never extends past `start + chunk_size`. -/
theorem chunkEnd_le (cs : Nat) (text : List Char) (s : Int) (hs : 0 ≤ s) :
    chunkEnd cs text s ≤ s + cs := by
  simp only [chunkEnd]
  split
  · split
    · have h1 := rfind_lt_length (pySlice text s (s + cs)) '.'
      have h2 := rfind_lt_length (pySlice text s (s + cs)) '\n'
      have h3 := pySlice_length_le text s (s + cs) hs (by omega)
      omega
    · omega
  · omega

/-- Progress of the window rule `start = end − chunk_overlap`: as long as
the overlap stays within `chunk_size // 2 + 1`, every window reaches past
`start + chunk_overlap`, so the next start strictly advances. -/
theorem chunkEnd_progress (cs ov : Nat) (text : List Char) (s : Int)
    (hov1 : ov < cs) (hov2 : ov ≤ cs / 2 + 1) :
    s + ov < chunkEnd cs text s := by
  simp only [chunkEnd]
  split
  · split
    · omega
    · omega
  · omega

/-- The shape of a finished `chunk_text` run: each chunk starts where the
loop variable stood, its end is `chunkEnd` of that start, its text is the
stripped window slice, and the next chunk starts at `end − overlap`;
the run stops exactly when the start reaches the end of the text. -/
inductive Covers (cs ov : Nat) (text : List Char) (fn cat : String) :
    Int → Nat → List Chunk → Prop
  | nil : ∀ s cid, (text.length : Int) ≤ s → Covers cs ov text fn cat s cid []
  | cons : ∀ s cid rest, s < (text.length : Int) →
      Covers cs ov text fn cat (chunkEnd cs text s - ov) (cid + 1) rest →
      Covers cs ov text fn cat s cid
        ({ id := fn ++ "_chunk_" ++ toString cid
           text := pyStrip (pySlice text s (chunkEnd cs text s))
           filename := fn
           category := cat
           chunk_id := cid
           start := s
           endPos := chunkEnd cs text s } :: rest)

/-- With enough fuel (one unit per remaining character), the chunk loop
terminates and its output has the `Covers` shape. -/
theorem chunkLoop_total (cs ov : Nat) (text : List Char) (fn cat : String)
    (hov1 : ov < cs) (hov2 : ov ≤ cs / 2 + 1) :
    ∀ (fuel : Nat) (s : Int) (cid : Nat), (text.length : Int) - s ≤ fuel →
    ∃ l, chunkLoop cs ov text fn cat fuel s cid = some l ∧
      Covers cs ov text fn cat s cid l := by
  intro fuel
  induction fuel with
  | zero =>
    intro s cid hfuel
    refine ⟨[], ?_, Covers.nil s cid (by omega)⟩
    simp only [chunkLoop]
    rw [if_neg (by omega)]
  | succ fuel ih =>
    intro s cid hfuel
    by_cases hs : s < (text.length : Int)
    · have hprog := chunkEnd_progress cs ov text s hov1 hov2
      obtain ⟨rest, hrest, hcov⟩ := ih (chunkEnd cs text s - ov) (cid + 1) (by omega)
      refine ⟨_, ?_, Covers.cons s cid rest hs hcov⟩
      simp only [chunkLoop]
      rw [if_pos hs, hrest]
    · refine ⟨[], ?_, Covers.nil s cid (by omega)⟩
      simp only [chunkLoop]
      rw [if_neg hs]

theorem Covers_start_nonneg (cs ov : Nat) (text : List Char) (fn cat : String)
    (hov1 : ov < cs) (hov2 : ov ≤ cs / 2 + 1)
    (l : List Chunk) (s : Int) (cid : Nat) (hcov : Covers cs ov text fn cat s cid l) :
    0 ≤ s → ∀ c ∈ l, 0 ≤ c.start := by
  induction hcov with
  | nil s cid hlen => intro _ c hc; cases hc
  | cons s cid rest hlt htail ih =>
    intro hs c hc
    have hprog := chunkEnd_progress cs ov text s hov1 hov2
    rcases List.mem_cons.mp hc with hc | hc
    · subst hc; exact hs
    · exact ih (by omega) c hc

theorem Covers_covers (cs ov : Nat) (text : List Char) (fn cat : String)
    (l : List Chunk) (s : Int) (cid : Nat) (hcov : Covers cs ov text fn cat s cid l) :
    ∀ p : Int, s ≤ p → p < (text.length : Int) →
    ∃ c ∈ l, c.start ≤ p ∧ p < c.endPos := by
  induction hcov with
  | nil s cid hlen => intro p hsp hp; omega
  | cons s cid rest hlt htail ih =>
    intro p hsp hp
    by_cases hpe : p < chunkEnd cs text s
    · exact ⟨_, List.mem_cons_self _ _, hsp, hpe⟩
    · obtain ⟨c, hc, h1, h2⟩ := ih p (by omega) hp
      exact ⟨c, List.mem_cons_of_mem _ hc, h1, h2⟩

theorem Covers_chain (cs ov : Nat) (text : List Char) (fn cat : String)
    (l : List Chunk) (s : Int) (cid : Nat) (hcov : Covers cs ov text fn cat s cid l) :
    l.Chain' (fun c c' => c'.start = c.endPos - (ov : Int)) := by
  induction hcov with
  | nil s cid hlen => exact List.chain'_nil
  | cons s cid rest hlt htail ih =>
    cases htail with
    | nil s' cid' hlen' => simp
    | cons s' cid' rest' hlt' htail' =>
      exact List.chain'_cons.mpr ⟨rfl, ih⟩

theorem Covers_text_le (cs ov : Nat) (text : List Char) (fn cat : String)
    (hov1 : ov < cs) (hov2 : ov ≤ cs / 2 + 1)
    (l : List Chunk) (s : Int) (cid : Nat) (hcov : Covers cs ov text fn cat s cid l) :
    0 ≤ s → ∀ c ∈ l, c.text.length ≤ cs := by
  induction hcov with
  | nil s cid hlen => intro _ c hc; cases hc
  | cons s cid rest hlt htail ih =>
    intro hs c hc
    have hprog := chunkEnd_progress cs ov text s hov1 hov2
    rcases List.mem_cons.mp hc with hc | hc
    · subst hc
      have h1 := pyStrip_length_le (pySlice text s (chunkEnd cs text s))
      have h2 := pySlice_length_le text s (chunkEnd cs text s) hs (by omega)
      have h3 := chunkEnd_le cs text s hs
      simp only
      omega
    · exact ih (by omega) c hc

theorem Covers_boundary (cs ov : Nat) (text : List Char) (fn cat : String)
    (l : List Chunk) (s : Int) (cid : Nat) (hcov : Covers cs ov text fn cat s cid l) :
    ∀ c ∈ l, c.endPos ≠ c.start + cs →
      ((cs / 2 : Nat) : Int) <
        max (rfind (pySlice text c.start (c.start + cs)) '.')
            (rfind (pySlice text c.start (c.start + cs)) '\n') ∧
      c.endPos = c.start +
        max (rfind (pySlice text c.start (c.start + cs)) '.')
            (rfind (pySlice text c.start (c.start + cs)) '\n') + 1 := by
  induction hcov with
  | nil s cid hlen => intro c hc; cases hc
  | cons s cid rest hlt htail ih =>
    intro c hc hne
    rcases List.mem_cons.mp hc with hc | hc
    · subst hc
      simp only at hne ⊢
      simp only [chunkEnd] at hne ⊢
      by_cases hlen2 : s + (cs : Int) < (text.length : Int)
      · by_cases hbp : max (rfind (pySlice text s (s + (cs : Int))) '.')
            (rfind (pySlice text s (s + (cs : Int))) '\n') > ((cs / 2 : Nat) : Int)
        · rw [if_pos hlen2, if_pos hbp]
          exact ⟨hbp, rfl⟩
        · rw [if_pos hlen2, if_neg hbp] at hne
          exact absurd rfl hne
      · rw [if_neg hlen2] at hne
        exact absurd rfl hne
    · exact ih c hc hne

theorem Covers_one_chunk (cs ov : Nat) (text : List Char) (fn cat : String)
    (l : List Chunk) (hcov : Covers cs ov text fn cat 0 0 l)
    (hpos : 0 < text.length) (hle : text.length + ov ≤ cs) : l.length = 1 := by
  have he : chunkEnd cs text 0 = (cs : Int) := by
    simp only [chunkEnd]
    rw [if_neg (by omega)]
    omega
  cases hcov with
  | nil s cid hlen => omega
  | cons s cid rest hlt htail =>
    rw [he] at htail
    cases htail with
    | nil s' cid' hlen' => simp
    | cons s' cid' rest' hlt' htail' => omega

/-! ### Claims C1 and C3 -/

/-- Claim C1 (amended): for every text and every configuration with
`chunk_overlap < chunk_size` *and* `chunk_overlap ≤ chunk_size / 2 + 1`,
`chunk_text` terminates with a finite ordered chunk list, and the
window-advance rule `start = end − overlap` always makes progress
(every window end lies strictly past `start + overlap`).  The extra
overlap bound is necessary: see `chunk_text_diverges_cx`. -/
theorem chunk_text_terminates (cs ov : Nat) (text : List Char) (fn cat : String)
    (hov1 : ov < cs) (hov2 : ov ≤ cs / 2 + 1) :
    (∃ l, chunk_text cs ov text fn cat = some l) ∧
    (∀ s : Int, s + ov < chunkEnd cs text s) := by
  constructor
  · obtain ⟨l, hl, _⟩ :=
      chunkLoop_total cs ov text fn cat hov1 hov2 (text.length + 1) 0 0 (by omega)
    exact ⟨l, hl⟩
  · intro s
    exact chunkEnd_progress cs ov text s hov1 hov2

theorem chunk_text_terminates_witness :
    (∃ l, chunk_text 10 5 "Hello there. This is a test.".toList "f" "c" = some l) ∧
    (∀ s : Int, s + 5 < chunkEnd 10 "Hello there. This is a test.".toList s) :=
  chunk_text_terminates 10 5 "Hello there. This is a test.".toList "f" "c"
    (by decide) (by decide)

set_option maxRecDepth 8192 in
/-- Claim C1 counterexample: the claim as stated fails.  With
`chunk_size = 10`, `chunk_overlap = 9` — a configuration the claim
admits, since `9 < 10` — on the text `"01234567.9ABCDEF"`, the first
window `"01234567.9"` shrinks to just past the period at index 8
(`8 > 10 // 2`), so `end = 9` and the next start is `9 − 9 = 0` again:
the loop never advances.  The chunker returns no list at the default
fuel and still none at fuel 100, and the window step from start 0 maps
back to start 0 while 0 is still inside the text, so no fuel suffices. -/
theorem chunk_text_diverges_cx :
    9 < 10 ∧
    chunk_text 10 9 "01234567.9ABCDEF".toList "f" "c" = none ∧
    chunkLoop 10 9 "01234567.9ABCDEF".toList "f" "c" 100 0 0 = none ∧
    chunkEnd 10 "01234567.9ABCDEF".toList 0 - 9 = 0 ∧
    (0 : Int) < ("01234567.9ABCDEF".toList.length : Int) := by decide

/-- Claim C3 (amended): for every text and configuration with
`chunk_overlap < chunk_size` and `chunk_overlap ≤ chunk_size / 2 + 1`,
the produced chunk spans cover the text, each chunk's successor starts
exactly `chunk_overlap` before the chunk's end (so consecutive spans
overlap by at most `chunk_overlap`), no chunk's text exceeds
`chunk_size` characters, a chunk boundary differs from
`start + chunk_size` only when the window's last sentence terminator or
line break lies past the window's midpoint (and is then moved there),
and a nonempty text of at most `chunk_size − chunk_overlap` characters
yields exactly one chunk.  (A text merely shorter than the window can
yield more than one chunk: see `chunk_text_one_chunk_cx`.) -/
theorem chunk_text_properties (cs ov : Nat) (text : List Char) (fn cat : String)
    (hov1 : ov < cs) (hov2 : ov ≤ cs / 2 + 1) :
    ∃ l, chunk_text cs ov text fn cat = some l ∧
      (∀ p : Int, 0 ≤ p → p < (text.length : Int) →
        ∃ c ∈ l, c.start ≤ p ∧ p < c.endPos) ∧
      l.Chain' (fun c c' => c'.start = c.endPos - (ov : Int)) ∧
      (∀ c ∈ l, c.text.length ≤ cs) ∧
      (∀ c ∈ l, c.endPos ≠ c.start + cs →
        ((cs / 2 : Nat) : Int) <
          max (rfind (pySlice text c.start (c.start + cs)) '.')
              (rfind (pySlice text c.start (c.start + cs)) '\n') ∧
        c.endPos = c.start +
          max (rfind (pySlice text c.start (c.start + cs)) '.')
              (rfind (pySlice text c.start (c.start + cs)) '\n') + 1) ∧
      (0 < text.length → text.length + ov ≤ cs → l.length = 1) := by
  obtain ⟨l, hl, hcov⟩ :=
    chunkLoop_total cs ov text fn cat hov1 hov2 (text.length + 1) 0 0 (by omega)
  refine ⟨l, hl, ?_, Covers_chain cs ov text fn cat l 0 0 hcov,
    Covers_text_le cs ov text fn cat hov1 hov2 l 0 0 hcov le_rfl,
    Covers_boundary cs ov text fn cat l 0 0 hcov, ?_⟩
  · intro p hp hplen
    exact Covers_covers cs ov text fn cat l 0 0 hcov p hp hplen
  · intro hpos hle
    exact Covers_one_chunk cs ov text fn cat l hcov hpos hle

set_option maxRecDepth 4096 in
theorem chunk_text_properties_witness :
    ∃ l, chunk_text 12 3 "Hello there. This is a test.".toList "f" "c" = some l ∧
      (∀ p : Int, 0 ≤ p → p < ("Hello there. This is a test.".toList.length : Int) →
        ∃ c ∈ l, c.start ≤ p ∧ p < c.endPos) ∧
      l.Chain' (fun c c' => c'.start = c.endPos - ((3 : Nat) : Int)) ∧
      (∀ c ∈ l, c.text.length ≤ 12) ∧
      (∀ c ∈ l, c.endPos ≠ c.start + 12 →
        ((12 / 2 : Nat) : Int) <
          max (rfind (pySlice "Hello there. This is a test.".toList c.start (c.start + 12)) '.')
              (rfind (pySlice "Hello there. This is a test.".toList c.start (c.start + 12)) '\n') ∧
        c.endPos = c.start +
          max (rfind (pySlice "Hello there. This is a test.".toList c.start (c.start + 12)) '.')
              (rfind (pySlice "Hello there. This is a test.".toList c.start (c.start + 12)) '\n') + 1) ∧
      (0 < "Hello there. This is a test.".toList.length →
        "Hello there. This is a test.".toList.length + 3 ≤ 12 → l.length = 1) :=
  chunk_text_properties 12 3 "Hello there. This is a test.".toList "f" "c"
    (by decide) (by decide)

/-- Claim C3 counterexample: the clause "text shorter than the window
yields exactly one chunk" fails.  `"abcde"` (5 characters, shorter than the window of
10) with `chunk_overlap = 6 < 10 = chunk_size` yields two chunks: the
first window is the whole text with recorded end 10, and the next start
`10 − 6 = 4` is still inside the text, producing a second chunk `"e"`. -/
theorem chunk_text_one_chunk_cx :
    (chunk_text 10 6 "abcde".toList "f" "c").map List.length = some 2 ∧
    "abcde".toList.length < 10 ∧ 6 < 10 := by decide

/-! ## The vector index — `process_context_files` and `search_context`

`embedding_service.py` lines 222–334 and 457–509.  The ChromaDB
collection is embedded as a plain list of entries; deleting and
recreating the collection is dropping that list.  The embedding
backend (`self.encode`, a network call) and the similarity query
(`collection.query`) are external collaborators, passed in as
functions; an embedding failure (an exception in `encode`) is `none`. -/

/-- Python `str.endswith(suffix)` (via the character lists, so that
proofs can evaluate it). -/
def pyEndsWith (s suffix : String) : Bool :=
  suffix.toList.isSuffixOf s.toList

/-- One record stored in the ChromaDB collection by `collection.add`:
id, embedding vector, document text and the chunk metadata. -/
structure IndexEntry where
  id : String
  embedding : List Int
  document : List Char
  filename : String
  category : String
  chunk_id : Nat
  deriving DecidableEq

/-- Embedding a batch (`self.encode(chunk_texts)`): `_gemini_encode`
embeds one text at a time and re-raises on the first failure, so the
whole batch fails if any single text fails. -/
def encodeAll (embed : List Char → Option (List Int)) :
    List (List Char) → Option (List (List Int))
  | [] => some []
  | t :: ts =>
    match embed t with
    | none => none
    | some v =>
      match encodeAll embed ts with
      | none => none
      | some vs => some (v :: vs)

/-- The records `collection.add` stores for one file's chunks. -/
def entriesOf (chunks : List Chunk) (vecs : List (List Int)) : List IndexEntry :=
  chunks.zipWith
    (fun c v =>
      { id := c.id
        embedding := v
        document := c.text
        filename := c.filename
        category := c.category
        chunk_id := c.chunk_id })
    vecs

/-- The per-file loop of `process_context_files` (step 3).  Each file is
skipped unless it ends in `.txt`/`.md`; its text is chunked and the
chunk batch embedded; an embedding failure raises, is caught by the
outer `except`, and the function returns `False` — with every entry
added *so far* still in the collection.  The outer `none` signals a
non-terminating chunker call (see `chunk_text`). -/
def processFilesLoop (cs ov : Nat) (embed : List Char → Option (List Int)) :
    List (String × String × List Char) → List IndexEntry →
    Option (Bool × List IndexEntry)
  | [], idx => some (true, idx)
  | (filename, category, content) :: rest, idx =>
    if pyEndsWith filename ".txt" || pyEndsWith filename ".md" then
      match chunk_text cs ov content filename category with
      | none => none
      | some chunks =>
        if chunks.isEmpty then processFilesLoop cs ov embed rest idx
        else
          match encodeAll embed (chunks.map Chunk.text) with
          | none => some (false, idx)
          | some vecs =>
            processFilesLoop cs ov embed rest (idx ++ entriesOf chunks vecs)
    else processFilesLoop cs ov embed rest idx

/-- `EmbeddingService.process_context_files`: step 1 deletes the whole
collection and recreates it empty — before any file is read — then the
per-file loop runs on the fresh, empty collection.  `prior` is the
collection content before the call; it is unconditionally discarded. -/
def process_context_files (cs ov : Nat) (embed : List Char → Option (List Int))
    (files : List (String × String × List Char)) (prior : List IndexEntry) :
    Option (Bool × List IndexEntry) :=
  processFilesLoop cs ov embed files []

/-- The context string built from query results (`search_context`'s
formatting loop): one `--- Source: file [category] (Chunk #n) ---`
header per hit, parts joined by a newline, empty string for no hits. -/
def formatResults (results : List IndexEntry) : String :=
  String.intercalate "\n"
    (results.map (fun r =>
      "--- Source: " ++ r.filename ++ " [" ++ r.category ++ "] (Chunk #" ++
        toString (r.chunk_id + 1) ++ ") ---\n" ++ String.mk r.document ++ "\n"))

/-- `EmbeddingService.search_context(query, top_k)`.  `queryFn` is the
ChromaDB `collection.query` call (external).  An empty collection
returns `""` before anything else runs; a failing query embedding is
caught and also returns `""`. -/
def search_context (queryFn : List Int → Nat → List IndexEntry)
    (embed : List Char → Option (List Int)) (idx : List IndexEntry)
    (query : List Char) (top_k : Nat) : String :=
  if idx.length = 0 then ""
  else
    match embed query with
    | none => ""
    | some qv => formatResults (queryFn qv (min top_k idx.length))

/-! ### Claim C2 -/

/-- Claim C2 (amended): an embedding failure makes the reindex return
failure, but the reindex is destructive, not atomic — the prior index
was already dropped when the loop started (the result never depends on
it), and the entries embedded before the failing file stay in the
collection as a partial index.  Searching an empty index returns the
empty string rather than an error.  The failure step: a file whose
chunk batch fails to embed ends the run with `False` and exactly the
entries accumulated so far. -/
theorem reindex_abort_behaviour (cs ov : Nat)
    (embed embed2 : List Char → Option (List Int))
    (queryFn : List Int → Nat → List IndexEntry)
    (query : List Char) (top_k : Nat)
    (files : List (String × String × List Char)) (prior prior2 : List IndexEntry)
    (fname cat : String) (content : List Char)
    (rest : List (String × String × List Char))
    (idx : List IndexEntry) (chunks : List Chunk)
    (hext : (pyEndsWith fname ".txt" || pyEndsWith fname ".md") = true)
    (hchunks : chunk_text cs ov content fname cat = some chunks)
    (hne : chunks.isEmpty = false)
    (hfail : encodeAll embed (chunks.map Chunk.text) = none) :
    search_context queryFn embed2 [] query top_k = "" ∧
    process_context_files cs ov embed files prior =
      process_context_files cs ov embed files prior2 ∧
    processFilesLoop cs ov embed ((fname, cat, content) :: rest) idx =
      some (false, idx) := by
  refine ⟨rfl, rfl, ?_⟩
  simp only [processFilesLoop, hext, if_true, hchunks, hne, hfail]
  rfl

theorem reindex_abort_behaviour_witness :
    search_context (fun _ _ => []) (fun _ => some [0]) [] "q".toList 5 = "" ∧
    process_context_files 4 1 (fun _ => none)
        [("a.txt", "books", "ab".toList)] [] =
      process_context_files 4 1 (fun _ => none)
        [("a.txt", "books", "ab".toList)]
        [{ id := "old_chunk_0", embedding := [7], document := "x".toList,
           filename := "old.txt", category := "books", chunk_id := 0 }] ∧
    processFilesLoop 4 1 (fun _ => none) [("a.txt", "books", "ab".toList)] [] =
      some (false, []) := by
  refine reindex_abort_behaviour 4 1 (fun _ => none) (fun _ => some [0])
    (fun _ _ => []) "q".toList 5 [("a.txt", "books", "ab".toList)] [] _
    "a.txt" "books" "ab".toList [] []
    [{ id := "a.txt_chunk_0"
       text := "ab".toList
       filename := "a.txt"
       category := "books"
       chunk_id := 0
       start := 0
       endPos := 4 }] (by decide) (by decide) (by decide) (by decide)

/-- Claim C2 counterexample: the claim as stated fails.  Starting from
a nonempty prior index and reindexing two files where the second file's
chunk fails to embed, the run returns failure with a *partial* index —
the first file's entry — and the prior entry is gone: the prior index
state is not left intact, and a partial index remains. -/
theorem reindex_not_atomic_cx :
    process_context_files 4 1
      (fun t => if t = "cd".toList then none else some [1])
      [("a.txt", "books", "ab".toList), ("b.txt", "books", "cd".toList)]
      [{ id := "old_chunk_0", embedding := [7], document := "x".toList,
         filename := "old.txt", category := "books", chunk_id := 0 }]
      = some (false,
        [{ id := "a.txt_chunk_0", embedding := [1], document := "ab".toList,
           filename := "a.txt", category := "books", chunk_id := 0 }]) ∧
    ([{ id := "a.txt_chunk_0", embedding := [1], document := "ab".toList,
        filename := "a.txt", category := "books", chunk_id := 0 }] :
      List IndexEntry) ≠
      [{ id := "old_chunk_0", embedding := [7], document := "x".toList,
         filename := "old.txt", category := "books", chunk_id := 0 }] ∧
    ([{ id := "a.txt_chunk_0", embedding := [1], document := "ab".toList,
        filename := "a.txt", category := "books", chunk_id := 0 }] :
      List IndexEntry) ≠ [] := by
  refine ⟨?_, by decide, by decide⟩
  rfl

/-! ## Corpus registry and streaming sessions

`transcription.py` and the context-file routes of `admin.py`.  The
`data/context_config.json` document and the `documents/context` folder
are embedded together as one `ContextState`; every route is a pure
state transition returning its HTTP-level outcome.  JSON objects are
insertion-ordered association lists (Python dicts preserve insertion
order); `secure_filename` and `datetime.utcnow` are external, so
filenames are taken as already sanitised and timestamps are dropped.
Per-filename file locks only serialise the write itself; a single
transition is one serialised request. -/

/-- Python dict assignment `d[k] = v`: replace in place, else append. -/
def setAssoc {α : Type} : List (String × α) → String → α → List (String × α)
  | [], k, v => [(k, v)]
  | (k', v') :: rest, k, v =>
    if k' == k then (k, v) :: rest else (k', v') :: setAssoc rest k v

/-- Python `del d[k]`: drop the (first) entry with key `k`. -/
def delAssoc {α : Type} : List (String × α) → String → List (String × α)
  | [], _ => []
  | (k', v') :: rest, k =>
    if k' == k then rest else (k', v') :: delAssoc rest k

/-- The session lookup loop shared by append/status/finalize/abort:
the first filename whose stored `session_id` matches. -/
def findSessionFilename : List (String × String) → String → Option String
  | [], _ => none
  | (fname, sid) :: rest, session_id =>
    if sid == session_id then some fname
    else findSessionFilename rest session_id

/-- Python `allowed_context_file`: has a dot, and the extension after
the last dot, lowercased, is `txt` or `md`. -/
def allowed_context_file (filename : String) : Bool :=
  filename.toList.contains '.' &&
  (let ext := ((filename.toList.reverse.takeWhile (fun c => c != '.')).reverse.map
      Char.toLower)
   ext == "txt".toList || ext == "md".toList)

/-- UTF-8 byte length of a string (`len(s.encode('utf-8'))`, and the
size on disk of a file holding `s`). -/
def utf8Len (s : String) : Nat := (s.toList.map Char.utf8Size).sum

/-- The context-corpus state: the config document's four sections plus
the folder contents (`filename → file text`). -/
structure ContextState where
  streaming_sessions : List (String × String)
  base_context : List String
  base_context_types : List (String × String)
  vectorized_files : List (String × List String)
  files : List (String × String)
  deriving DecidableEq

/-- The HTTP-level outcome of one route call. -/
inductive RouteResult where
  | error (code : Nat) (msg : String)
  | started (session_id : String)
  | resumed (session_id : String)
  | appended (total_chars : Nat)
  | finalized (filename : String)
  | moved (target : String)
  | deleted (filename : String)
  | uploaded (filenames : List String)
  deriving DecidableEq

/-- `start_stream` (`transcription.py` 58–139).  `new_session_id` stands
for the freshly generated `secrets.token_urlsafe` token. -/
def start_stream (st : ContextState)
    (filename source_identifier new_session_id : String) :
    RouteResult × ContextState :=
  if filename = "" then (.error 400 "Filename is required", st)
  else if !allowed_context_file filename then
    (.error 400 "Invalid filename. Only .txt and .md allowed", st)
  else
    match List.lookup filename st.files with
    | some _ =>
      match List.lookup filename st.streaming_sessions with
      | some existing_sid => (.resumed existing_sid, st)
      | none =>
        (.error 409
          "File exists and is not in streaming mode. Delete it first or choose a different name.",
          st)
    | none =>
      (.started new_session_id,
        { st with
            files := setAssoc st.files filename ""
            streaming_sessions :=
              setAssoc st.streaming_sessions filename new_session_id })

/-- `append_content` (`transcription.py` 142–213): validation, the
100 KB per-call cap on the content's character count, session lookup,
the 10 MB total cap on current file bytes plus content bytes (the
appended newline is not included in the check), then the append of
`content + '\n'` and the total character count re-read from the file. -/
def append_content (st : ContextState) (session_id content : String) :
    RouteResult × ContextState :=
  if session_id = "" then (.error 400 "session_id is required", st)
  else if content = "" then (.error 400 "content is required", st)
  else if content.length > 100 * 1024 then
    (.error 413 "Content exceeds maximum size (100KB)", st)
  else
    match findSessionFilename st.streaming_sessions session_id with
    | none => (.error 404 "Session not found or expired", st)
    | some filename =>
      match List.lookup filename st.files with
      | some fc =>
        if utf8Len fc + utf8Len content > 10 * 1024 * 1024 then
          (.error 413 "File size limit exceeded (10MB)", st)
        else
          (.appended (fc ++ content ++ "\n").length,
            { st with files := setAssoc st.files filename (fc ++ content ++ "\n") })
      | none =>
        (.appended (content ++ "\n").length,
          { st with files := setAssoc st.files filename (content ++ "\n") })

/-- `finalize_stream` (`transcription.py` 261–328): drop the session,
add the filename to `base_context` if absent, type it `transcript`. -/
def finalize_stream (st : ContextState) (session_id : String) :
    RouteResult × ContextState :=
  if session_id = "" then (.error 400 "session_id is required", st)
  else
    match findSessionFilename st.streaming_sessions session_id with
    | none => (.error 404 "Session not found or expired", st)
    | some filename =>
      (.finalized filename,
        { st with
            streaming_sessions := delAssoc st.streaming_sessions filename
            base_context :=
              if st.base_context.contains filename then st.base_context
              else st.base_context ++ [filename]
            base_context_types :=
              setAssoc st.base_context_types filename "transcript" })

/-- The `if category not in vectorized_files: … = []` plus
`vectorized_files[category].append(filename)` pair: append to the
category's list, creating the key at the end if missing. -/
def addToCategory : List (String × List String) → String → String →
    List (String × List String)
  | [], cat, fname => [(cat, [fname])]
  | (c, fl) :: rest, cat, fname =>
    if c == cat then (c, fl ++ [fname]) :: rest
    else (c, fl) :: addToCategory rest cat fname

/-- Python `target.split(':')[1]` for the `vectorized:<category>`
targets (everything after the first colon). -/
def targetCategory (target : String) : String :=
  String.mk ((target.toList.dropWhile (fun c => c != ':')).drop 1)

/-- The four valid placement targets of the admin routes. -/
def validTargets : List String :=
  ["base_context", "vectorized:transcript", "vectorized:books",
   "vectorized:background_info"]

/-- `move_context_file` (`admin.py` 1011–1074): guards, then removal
from `base_context` and from every vectorized category, then insertion
into the requested target. -/
def move_context_file (st : ContextState) (filename target : String) :
    RouteResult × ContextState :=
  if (List.lookup filename st.files).isNone then
    (.error 404 "File not found", st)
  else if !validTargets.contains target then
    (.error 400 "Invalid target", st)
  else if (List.lookup filename st.streaming_sessions).isSome then
    (.error 409 "Cannot move file in streaming mode. Finalize or abort first.", st)
  else
    let base :=
      if st.base_context.contains filename then st.base_context.erase filename
      else st.base_context
    let vect := st.vectorized_files.map
      (fun p => (p.1, if p.2.contains filename then p.2.erase filename else p.2))
    if target = "base_context" then
      (.moved target,
        { st with base_context := base ++ [filename], vectorized_files := vect })
    else
      (.moved target,
        { st with base_context := base
                  vectorized_files := addToCategory vect (targetCategory target) filename })

/-- `delete_context_file` (`admin.py` 960–1008): guards, remove the
file from disk and from `base_context` and every vectorized category. -/
def delete_context_file (st : ContextState) (filename : String) :
    RouteResult × ContextState :=
  if (List.lookup filename st.files).isNone then
    (.error 404 "File not found", st)
  else if (List.lookup filename st.streaming_sessions).isSome then
    (.error 409 "Cannot delete file in streaming mode. Abort the stream first.", st)
  else
    (.deleted filename,
      { st with
          files := delAssoc st.files filename
          base_context :=
            if st.base_context.contains filename then st.base_context.erase filename
            else st.base_context
          vectorized_files := st.vectorized_files.map
            (fun p => (p.1, if p.2.contains filename then p.2.erase filename else p.2)) })

/-- The per-file validation/save loop of `upload_context_files`
(`admin.py` 892–923).  Empty names are skipped; a bad extension or an
oversized file aborts the whole request (`none`); otherwise the file is
saved (a pre-existing file is first renamed to a `_bakN` backup, which
never appears in the config, so the save is modelled as an overwrite)
and its name collected. -/
def uploadLoop : List (String × String) → List (String × String) →
    Option (List (String × String) × List String)
  | disk, [] => some (disk, [])
  | disk, (fname, content) :: rest =>
    if fname = "" then uploadLoop disk rest
    else if !allowed_context_file fname then none
    else if utf8Len content > 500 * 1024 then none
    else
      match uploadLoop (setAssoc disk fname content) rest with
      | none => none
      | some (disk', uploaded) => some (disk', fname :: uploaded)

/-- The config update of `upload_context_files` (`admin.py` 934–944):
append each uploaded filename to the target placement *if not already
there* — nothing is removed from any other placement. -/
def uploadConfigUpdate (st : ContextState) (target : String) :
    List String → ContextState
  | [] => st
  | fname :: rest =>
    let st' :=
      if target = "base_context" then
        if st.base_context.contains fname then st
        else { st with base_context := st.base_context ++ [fname] }
      else
        if ((List.lookup (targetCategory target) st.vectorized_files).getD []).contains
            fname then st
        else
          { st with vectorized_files :=
              addToCategory st.vectorized_files (targetCategory target) fname }
    uploadConfigUpdate st' target rest

/-- `upload_context_files` (`admin.py` 862–957). -/
def upload_context_files (st : ContextState)
    (uploads : List (String × String)) (target : String) :
    RouteResult × ContextState :=
  if uploads.isEmpty then (.error 400 "No files selected", st)
  else if !validTargets.contains target then
    (.error 400 "Invalid target", st)
  else
    match uploadLoop st.files uploads with
    | none => (.error 400 "Invalid file type or size", st)
    | some (disk, uploaded) =>
      (.uploaded uploaded,
        uploadConfigUpdate { st with files := disk } target uploaded)

/-- How many placements a filename occupies: `base_context` occurrences
plus occurrences across all vectorized categories plus an active
streaming session. -/
def placements (st : ContextState) (fname : String) : Nat :=
  st.base_context.count fname +
  (st.vectorized_files.map (fun p => p.2.count fname)).sum +
  st.streaming_sessions.countP (fun q => q.1 == fname)

/-- The single-placement invariant of the corpus registry. -/
def SinglePlacement (st : ContextState) : Prop :=
  ∀ f : String, placements st f ≤ 1

/-! ### Helper lemmas for the streaming routes -/

theorem strLength_mk (l : List Char) : (String.mk l).length = l.length := rfl

theorem utf8Len_append (a b : String) :
    utf8Len (a ++ b) = utf8Len a + utf8Len b := by
  simp [utf8Len, String.toList, String.data_append]

theorem utf8Len_replicate (n : Nat) (c : Char) :
    utf8Len (String.mk (List.replicate n c)) = n * c.utf8Size := by
  simp [utf8Len, String.toList, List.map_replicate, List.sum_replicate, smul_eq_mul]

theorem lookup_setAssoc_self {α : Type} (l : List (String × α)) (k : String) (v : α) :
    List.lookup k (setAssoc l k v) = some v := by
  induction l with
  | nil => simp [setAssoc, List.lookup]
  | cons kv rest ih =>
    obtain ⟨k', v'⟩ := kv
    by_cases h : (k' == k) = true
    · simp [setAssoc, h, List.lookup]
    · have h1 : ¬k' = k := by simpa using h
      have h2 : ¬k = k' := fun hh => h1 hh.symm
      have hb : (k == k') = false := beq_eq_false_iff_ne.mpr h2
      simp [setAssoc, h1, List.lookup, hb, ih]

/-- A successful `append_content` call: every guard passes, the file
gains `content + '\n'`, nothing else changes. -/
theorem append_content_success (st : ContextState) (sid content fname fc : String)
    (hsid : ¬sid = "") (hc : ¬content = "")
    (hlen : ¬content.length > 100 * 1024)
    (hfind : findSessionFilename st.streaming_sessions sid = some fname)
    (hfc : List.lookup fname st.files = some fc)
    (hsize : ¬(utf8Len fc + utf8Len content > 10 * 1024 * 1024)) :
    append_content st sid content =
      (.appended (fc ++ content ++ "\n").length,
        { st with files := setAssoc st.files fname (fc ++ content ++ "\n") }) := by
  simp only [append_content, if_neg hsid, if_neg hc, if_neg hlen, hfind, hfc,
    if_neg hsize]

/-- Iterated appends (how a live transcription source uses the
`append` route: one call per piece). -/
def appendAll (st : ContextState) (sid : String) : List String → ContextState
  | [] => st
  | p :: ps => appendAll (append_content st sid p).2 sid ps

/-- The concatenation of pieces, each terminated by a newline. -/
def concatNl : List String → String
  | [] => ""
  | p :: ps => p ++ "\n" ++ concatNl ps

theorem appendAll_files (sid fname : String) :
    ∀ (pieces : List String) (st : ContextState) (fc : String),
    ¬sid = "" →
    findSessionFilename st.streaming_sessions sid = some fname →
    List.lookup fname st.files = some fc →
    (∀ p ∈ pieces, ¬p = "" ∧ ¬p.length > 100 * 1024) →
    ¬(utf8Len fc + utf8Len (concatNl pieces) > 10 * 1024 * 1024) →
    List.lookup fname (appendAll st sid pieces).files =
      some (fc ++ concatNl pieces) := by
  intro pieces
  induction pieces with
  | nil =>
    intro st fc _ _ hfc _ _
    simpa [appendAll, concatNl] using hfc
  | cons p ps ih =>
    intro st fc hsid hfind hfc hval hsz
    obtain ⟨hpne, hplen⟩ := hval p (List.mem_cons_self p ps)
    have hexp : utf8Len (concatNl (p :: ps)) =
        utf8Len p + 1 + utf8Len (concatNl ps) := by
      show utf8Len (p ++ "\n" ++ concatNl ps) = _
      rw [utf8Len_append, utf8Len_append]
      have h1 : utf8Len "\n" = 1 := by decide
      omega
    have hsz1 : ¬(utf8Len fc + utf8Len p > 10 * 1024 * 1024) := by omega
    have hstep := append_content_success st sid p fname fc hsid hpne hplen hfind hfc hsz1
    have : appendAll st sid (p :: ps) =
        appendAll (append_content st sid p).2 sid ps := rfl
    rw [this, hstep]
    have hfc' : List.lookup fname
        (setAssoc st.files fname (fc ++ p ++ "\n")) = some (fc ++ p ++ "\n") :=
      lookup_setAssoc_self st.files fname (fc ++ p ++ "\n")
    have hsz' : ¬(utf8Len (fc ++ p ++ "\n") + utf8Len (concatNl ps) >
        10 * 1024 * 1024) := by
      rw [utf8Len_append, utf8Len_append]
      have h1 : utf8Len "\n" = 1 := by decide
      omega
    have hres := ih { st with files := setAssoc st.files fname (fc ++ p ++ "\n") }
      (fc ++ p ++ "\n") hsid hfind hfc'
      (fun q hq => hval q (List.mem_cons_of_mem p hq)) hsz'
    rw [hres]
    have : fc ++ p ++ "\n" ++ concatNl ps = fc ++ concatNl (p :: ps) := by
      show _ = fc ++ (p ++ "\n" ++ concatNl ps)
      rw [String.append_assoc, String.append_assoc, String.append_assoc]
    rw [this]

/-! ### Claims C4, C5, C10 -/

/-- The C4 scenario: fresh state, start a stream for `t.txt`, append
`"hello "`, append `"world"`, finalize. -/
def c4Final : ContextState :=
  (finalize_stream
    (append_content
      (append_content
        (start_stream
          ⟨[], [], [], [("transcript", []), ("books", []), ("background_info", [])], []⟩
          "t.txt" "svc" "sess_1").2
        "sess_1" "hello ").2
      "sess_1" "world").2
    "sess_1").2

/-- Claim C4 (amended): after start → append `"hello "` → append
`"world"` → finalize, the base-corpus file holds exactly
`"hello \nworld\n"` — `append_content` writes `content + '\n'`, so each
piece is newline-terminated — the file is in `base_context` typed
`transcript`, and the streaming session is gone. -/
theorem stream_finalize_scenario :
    List.lookup "t.txt" c4Final.files = some "hello \nworld\n" ∧
    c4Final.streaming_sessions = [] ∧
    c4Final.base_context = ["t.txt"] ∧
    List.lookup "t.txt" c4Final.base_context_types = some "transcript" := by
  decide

/-- Claim C4 counterexample: the claim as stated fails — the resulting
file content is `"hello \nworld\n"`, not `"hello world"`, because every
append adds a trailing newline. -/
theorem stream_finalize_scenario_cx :
    List.lookup "t.txt" c4Final.files ≠ some "hello world" ∧
    List.lookup "t.txt" c4Final.files = some "hello \nworld\n" := by
  decide

/-- Claim C5 (amended): an append whose single-call character count
exceeds the 100 KB per-call cap, or where the current file's byte size
plus the content's byte size exceeds the 10 MB total cap, is rejected
with a specific reason (HTTP 413) and the state — the backing file in
particular — is unchanged.  The total-cap check compares
`current_size + len(content.encode())`, which excludes the newline the
append would add, so an append may be accepted whose resulting file
exceeds the cap by one byte (see the counterexample). -/
theorem append_caps_reject (st : ContextState) (sid big small fname fc : String)
    (hsid : ¬sid = "") (hbigne : ¬big = "") (hbig : big.length > 100 * 1024)
    (hsmallne : ¬small = "") (hsmall : ¬small.length > 100 * 1024)
    (hfind : findSessionFilename st.streaming_sessions sid = some fname)
    (hfc : List.lookup fname st.files = some fc)
    (hover : utf8Len fc + utf8Len small > 10 * 1024 * 1024) :
    append_content st sid big =
      (.error 413 "Content exceeds maximum size (100KB)", st) ∧
    append_content st sid small =
      (.error 413 "File size limit exceeded (10MB)", st) := by
  constructor
  · simp only [append_content, if_neg hsid, if_neg hbigne, if_pos hbig]
  · simp only [append_content, if_neg hsid, if_neg hsmallne, if_neg hsmall,
      hfind, hfc, if_pos hover]

theorem append_caps_reject_witness :
    append_content
        ⟨[("t.txt", "sess_1")], [], [], [],
         [("t.txt", String.mk (List.replicate (10 * 1024 * 1024) 'a'))]⟩
        "sess_1" (String.mk (List.replicate (100 * 1024 + 1) 'b')) =
      (.error 413 "Content exceeds maximum size (100KB)",
        ⟨[("t.txt", "sess_1")], [], [], [],
         [("t.txt", String.mk (List.replicate (10 * 1024 * 1024) 'a'))]⟩) ∧
    append_content
        ⟨[("t.txt", "sess_1")], [], [], [],
         [("t.txt", String.mk (List.replicate (10 * 1024 * 1024) 'a'))]⟩
        "sess_1" "x" =
      (.error 413 "File size limit exceeded (10MB)",
        ⟨[("t.txt", "sess_1")], [], [], [],
         [("t.txt", String.mk (List.replicate (10 * 1024 * 1024) 'a'))]⟩) := by
  refine append_caps_reject _ "sess_1"
    (String.mk (List.replicate (100 * 1024 + 1) 'b')) "x" "t.txt"
    (String.mk (List.replicate (10 * 1024 * 1024) 'a'))
    (by decide) ?_ ?_ (by decide) (by decide) rfl rfl ?_
  · intro h
    have h0 := congrArg String.length h
    rw [strLength_mk, List.length_replicate] at h0
    exact absurd h0 (by decide)
  · show (String.mk (List.replicate (100 * 1024 + 1) 'b')).length > 100 * 1024
    rw [strLength_mk, List.length_replicate]
    decide
  · rw [utf8Len_replicate]
    decide

/-- Claim C5 counterexample: the claim's "resulting total would exceed
the total-file cap ⇒ rejected" fails at the boundary.  A file of
10 485 759 bytes plus a one-byte append passes the check
(`10 485 759 + 1 ≤ 10 485 760`), yet the written data is
`content + '\n'`, so the resulting file is 10 485 761 bytes — above the
10 MB cap — and the append is accepted, not rejected. -/
theorem append_cap_ignores_newline_cx :
    (append_content
        ⟨[("t.txt", "sess_1")], [], [], [],
         [("t.txt", String.mk (List.replicate 10485759 'a'))]⟩
        "sess_1" "a").1 =
      .appended ((String.mk (List.replicate 10485759 'a') ++ "a" ++ "\n").length) ∧
    List.lookup "t.txt"
      (append_content
        ⟨[("t.txt", "sess_1")], [], [], [],
         [("t.txt", String.mk (List.replicate 10485759 'a'))]⟩
        "sess_1" "a").2.files =
      some (String.mk (List.replicate 10485759 'a') ++ "a" ++ "\n") ∧
    utf8Len (String.mk (List.replicate 10485759 'a')) + utf8Len "a" =
      10 * 1024 * 1024 ∧
    utf8Len (String.mk (List.replicate 10485759 'a') ++ "a" ++ "\n") =
      10 * 1024 * 1024 + 1 := by
  have hrep : utf8Len (String.mk (List.replicate 10485759 'a')) = 10485759 := by
    rw [utf8Len_replicate]; decide
  have hsize : ¬(utf8Len (String.mk (List.replicate 10485759 'a')) + utf8Len "a" >
      10 * 1024 * 1024) := by
    rw [hrep]; decide
  have hstep := append_content_success
    ⟨[("t.txt", "sess_1")], [], [], [],
     [("t.txt", String.mk (List.replicate 10485759 'a'))]⟩
    "sess_1" "a" "t.txt" (String.mk (List.replicate 10485759 'a'))
    (by decide) (by decide) (by decide) rfl rfl hsize
  refine ⟨by rw [hstep], by rw [hstep]; exact lookup_setAssoc_self _ _ _, ?_, ?_⟩
  · rw [hrep]; decide
  · rw [utf8Len_append, utf8Len_append, hrep]; decide

/-- Claim C10 (confirmed): a successful append grows the file by exactly
`content + '\n'`; the total-cap check counts only the content bytes
(current size + content size ≤ cap accepts, > cap rejects — the added
newline is in neither); the new file is one byte larger than what the
check accounted for; and after appending a list of pieces to an
initially looked-up file the file holds the concatenation of the pieces,
each terminated by one newline. -/
theorem append_grows_by_content_newline (st : ContextState)
    (sid content fname fc : String) (pieces : List String)
    (hsid : ¬sid = "") (hc : ¬content = "")
    (hlen : ¬content.length > 100 * 1024)
    (hfind : findSessionFilename st.streaming_sessions sid = some fname)
    (hfc : List.lookup fname st.files = some fc)
    (hval : ∀ p ∈ pieces, ¬p = "" ∧ ¬p.length > 100 * 1024)
    (hsz : ¬(utf8Len fc + utf8Len (concatNl pieces) > 10 * 1024 * 1024)) :
    (utf8Len fc + utf8Len content ≤ 10 * 1024 * 1024 →
      append_content st sid content =
        (.appended (fc ++ content ++ "\n").length,
          { st with files := setAssoc st.files fname (fc ++ content ++ "\n") })) ∧
    (utf8Len fc + utf8Len content > 10 * 1024 * 1024 →
      append_content st sid content =
        (.error 413 "File size limit exceeded (10MB)", st)) ∧
    utf8Len (fc ++ content ++ "\n") = utf8Len fc + utf8Len content + 1 ∧
    List.lookup fname (appendAll st sid pieces).files =
      some (fc ++ concatNl pieces) := by
  refine ⟨?_, ?_, ?_, appendAll_files sid fname pieces st fc hsid hfind hfc hval hsz⟩
  · intro hle
    exact append_content_success st sid content fname fc hsid hc hlen hfind hfc
      (by omega)
  · intro hgt
    simp only [append_content, if_neg hsid, if_neg hc, if_neg hlen, hfind, hfc,
      if_pos hgt]
  · rw [utf8Len_append, utf8Len_append]
    have : utf8Len "\n" = 1 := by decide
    omega

theorem append_grows_by_content_newline_witness :
    (utf8Len "seed\n" + utf8Len "hello " ≤ 10 * 1024 * 1024 →
      append_content ⟨[("t.txt", "sess_1")], [], [], [], [("t.txt", "seed\n")]⟩
          "sess_1" "hello " =
        (.appended ("seed\n" ++ "hello " ++ "\n").length,
          ⟨[("t.txt", "sess_1")], [], [], [],
           setAssoc [("t.txt", "seed\n")] "t.txt" ("seed\n" ++ "hello " ++ "\n")⟩)) ∧
    (utf8Len "seed\n" + utf8Len "hello " > 10 * 1024 * 1024 →
      append_content ⟨[("t.txt", "sess_1")], [], [], [], [("t.txt", "seed\n")]⟩
          "sess_1" "hello " =
        (.error 413 "File size limit exceeded (10MB)",
          ⟨[("t.txt", "sess_1")], [], [], [], [("t.txt", "seed\n")]⟩)) ∧
    utf8Len ("seed\n" ++ "hello " ++ "\n") =
      utf8Len "seed\n" + utf8Len "hello " + 1 ∧
    List.lookup "t.txt"
      (appendAll ⟨[("t.txt", "sess_1")], [], [], [], [("t.txt", "seed\n")]⟩
        "sess_1" ["hello ", "world"]).files =
      some ("seed\n" ++ concatNl ["hello ", "world"]) :=
  append_grows_by_content_newline
    ⟨[("t.txt", "sess_1")], [], [], [], [("t.txt", "seed\n")]⟩
    "sess_1" "hello " "t.txt" "seed\n" ["hello ", "world"]
    (by decide) (by decide) (by decide) rfl rfl (by decide) (by decide)

/-! ### Placement-counting lemmas (claim C9) -/

theorem guardErase_eq (l : List String) (f : String) :
    (if l.contains f then l.erase f else l) = l.erase f := by
  by_cases h : l.contains f
  · rw [if_pos h]
  · rw [if_neg h, List.erase_of_not_mem]
    intro hmem
    exact h (List.elem_iff.mpr hmem)

theorem vcount_remove_le (f : String) (vf : List (String × List String)) :
    ((vf.map (fun p => (p.1, if p.2.contains f then p.2.erase f else p.2))).map
      (fun p => p.2.count f)).sum ≤ (vf.map (fun p => p.2.count f)).sum := by
  induction vf with
  | nil => simp
  | cons hd tl ih =>
    obtain ⟨c, fl⟩ := hd
    simp only [List.map_cons, List.sum_cons]
    rw [guardErase_eq]
    have h1 := (List.erase_sublist f fl).count_le f
    omega

theorem vcount_remove_self (f : String) (vf : List (String × List String))
    (hle : (vf.map (fun p => p.2.count f)).sum ≤ 1) :
    ((vf.map (fun p => (p.1, if p.2.contains f then p.2.erase f else p.2))).map
      (fun p => p.2.count f)).sum = 0 := by
  induction vf with
  | nil => simp
  | cons hd tl ih =>
    obtain ⟨c, fl⟩ := hd
    simp only [List.map_cons, List.sum_cons] at hle ⊢
    rw [guardErase_eq]
    have h1 := List.count_erase_self f fl
    have h2 := vcount_remove_le f tl
    by_cases hc : fl.count f = 0
    · have := ih (by omega)
      omega
    · omega

theorem vcount_remove_ne (f g : String) (hne : g ≠ f)
    (vf : List (String × List String)) :
    ((vf.map (fun p => (p.1, if p.2.contains f then p.2.erase f else p.2))).map
      (fun p => p.2.count g)).sum = (vf.map (fun p => p.2.count g)).sum := by
  induction vf with
  | nil => simp
  | cons hd tl ih =>
    obtain ⟨c, fl⟩ := hd
    simp only [List.map_cons, List.sum_cons]
    rw [guardErase_eq, List.count_erase_of_ne hne, ih]

theorem vcount_addToCategory_self (f cat : String) :
    ∀ vf : List (String × List String),
    ((addToCategory vf cat f).map (fun p => p.2.count f)).sum =
      (vf.map (fun p => p.2.count f)).sum + 1 := by
  intro vf
  induction vf with
  | nil => simp [addToCategory, List.count_cons]
  | cons hd tl ih =>
    obtain ⟨c, fl⟩ := hd
    by_cases h : (c == cat) = true
    · simp only [addToCategory, h, if_true, List.map_cons, List.sum_cons,
        List.count_append]
      have : List.count f [f] = 1 := by simp [List.count_cons]
      omega
    · simp only [addToCategory, h, Bool.false_eq_true, if_false, List.map_cons,
        List.sum_cons, ih]
      omega

theorem vcount_addToCategory_ne (f g cat : String) (hne : g ≠ f) :
    ∀ vf : List (String × List String),
    ((addToCategory vf cat f).map (fun p => p.2.count g)).sum =
      (vf.map (fun p => p.2.count g)).sum := by
  intro vf
  have hone : List.count g [f] = 0 := by
    rw [List.count_eq_zero]
    simp [hne]
  induction vf with
  | nil => simp [addToCategory, hone]
  | cons hd tl ih =>
    obtain ⟨c, fl⟩ := hd
    by_cases h : (c == cat) = true
    · simp only [addToCategory, h, if_true, List.map_cons, List.sum_cons,
        List.count_append, hone]
      omega
    · simp only [addToCategory, h, Bool.false_eq_true, if_false, List.map_cons,
        List.sum_cons, ih]

theorem scount_delAssoc_self (k : String) (l : List (String × String)) :
    (delAssoc l k).countP (fun q => q.1 == k) =
      l.countP (fun q => q.1 == k) - 1 := by
  induction l with
  | nil => simp [delAssoc]
  | cons hd tl ih =>
    obtain ⟨k', v'⟩ := hd
    by_cases h : (k' == k) = true
    · simp [delAssoc, h, List.countP_cons]
    · simp [delAssoc, h, List.countP_cons, ih]

theorem scount_delAssoc_ne (k g : String) (hne : g ≠ k)
    (l : List (String × String)) :
    (delAssoc l k).countP (fun q => q.1 == g) =
      l.countP (fun q => q.1 == g) := by
  induction l with
  | nil => simp [delAssoc]
  | cons hd tl ih =>
    obtain ⟨k', v'⟩ := hd
    by_cases h : (k' == k) = true
    · have hk : k' = k := by simpa using h
      have hg : (k' == g) = false := by
        subst hk
        exact beq_eq_false_iff_ne.mpr (fun hh => hne hh.symm)
      simp [delAssoc, h, List.countP_cons, hg]
    · simp [delAssoc, h, List.countP_cons, ih]

theorem scount_lookup_none (f : String) (l : List (String × String))
    (h : List.lookup f l = none) :
    l.countP (fun q => q.1 == f) = 0 := by
  induction l with
  | nil => simp
  | cons hd tl ih =>
    obtain ⟨k', v'⟩ := hd
    rw [List.lookup] at h
    by_cases hk : (f == k') = true
    · simp [hk] at h
    · have hk' : (k' == f) = false := by
        have h1 : ¬f = k' := by simpa using hk
        exact beq_eq_false_iff_ne.mpr (fun hh => h1 hh.symm)
      have h2 : List.lookup f tl = none := by
        simpa [hk] using h
      simp [List.countP_cons, hk', ih h2]

theorem scount_find_some (sid f : String) :
    ∀ l : List (String × String), findSessionFilename l sid = some f →
    1 ≤ l.countP (fun q => q.1 == f) := by
  intro l
  induction l with
  | nil => intro h; simp [findSessionFilename] at h
  | cons hd tl ih =>
    obtain ⟨fn, s⟩ := hd
    intro h
    rw [findSessionFilename] at h
    by_cases hs : (s == sid) = true
    · rw [if_pos hs] at h
      injection h with h
      subst h
      simp [List.countP_cons]
    · rw [if_neg hs] at h
      have := ih h
      simp only [List.countP_cons]
      omega

theorem vcount_remove_le_any (f g : String) (vf : List (String × List String)) :
    ((vf.map (fun p => (p.1, if p.2.contains f then p.2.erase f else p.2))).map
      (fun p => p.2.count g)).sum ≤ (vf.map (fun p => p.2.count g)).sum := by
  induction vf with
  | nil => simp
  | cons hd tl ih =>
    obtain ⟨c, fl⟩ := hd
    simp only [List.map_cons, List.sum_cons]
    rw [guardErase_eq]
    have h1 := (List.erase_sublist f fl).count_le g
    omega

theorem placements_def (st : ContextState) (f : String) :
    placements st f = st.base_context.count f +
      (st.vectorized_files.map (fun p => p.2.count f)).sum +
      st.streaming_sessions.countP (fun q => q.1 == f) := rfl

/-- An accepted `delete_context_file` only removes occurrences, so it
preserves the single-placement invariant. -/
theorem delete_preserves (st : ContextState) (hinv : SinglePlacement st)
    (fname : String) : SinglePlacement (delete_context_file st fname).2 := by
  unfold delete_context_file
  by_cases c1 : (List.lookup fname st.files).isNone = true
  · rw [if_pos c1]
    exact hinv
  · rw [if_neg c1]
    by_cases c2 : (List.lookup fname st.streaming_sessions).isSome = true
    · rw [if_pos c2]
      exact hinv
    · rw [if_neg c2]
      intro g
      rw [placements_def]
      simp only
      rw [guardErase_eq]
      have h1 := (List.erase_sublist fname st.base_context).count_le g
      have h2 := vcount_remove_le_any fname g st.vectorized_files
      have h3 := hinv g
      rw [placements_def] at h3
      omega

/-- An accepted `finalize_stream` moves the filename's one placement
from the session map to `base_context`, so it preserves the invariant. -/
theorem finalize_preserves (st : ContextState) (hinv : SinglePlacement st)
    (sid : String) : SinglePlacement (finalize_stream st sid).2 := by
  unfold finalize_stream
  by_cases c0 : sid = ""
  · rw [if_pos c0]
    exact hinv
  · rw [if_neg c0]
    cases hfind : findSessionFilename st.streaming_sessions sid with
    | none => exact hinv
    | some fname =>
      simp only
      intro g
      have hsess := scount_find_some sid fname st.streaming_sessions hfind
      have hf := hinv fname
      rw [placements_def] at hf
      have hb0 : st.base_context.count fname = 0 := by omega
      have hnc : ¬st.base_context.contains fname = true := by
        intro hc
        exact absurd (List.elem_iff.mp hc) (List.count_eq_zero.mp hb0)
      rw [placements_def]
      simp only
      rw [if_neg hnc]
      by_cases hg : g = fname
      · subst hg
        rw [scount_delAssoc_self, List.count_append]
        have hcg : List.count g [g] = 1 := by simp [List.count_cons]
        have h3 := hinv g
        rw [placements_def] at h3
        omega
      · rw [scount_delAssoc_ne fname g hg, List.count_append]
        have hcg : List.count g [fname] = 0 := by
          rw [List.count_eq_zero]
          simp [hg]
        have h3 := hinv g
        rw [placements_def] at h3
        omega

/-- An accepted `move_context_file` removes the filename everywhere and
inserts it once, so the moved file ends at exactly one placement and the
invariant is preserved. -/
theorem move_preserves (st : ContextState) (hinv : SinglePlacement st)
    (fname target : String) :
    SinglePlacement (move_context_file st fname target).2 ∧
    ((move_context_file st fname target).1 = .moved target →
      placements (move_context_file st fname target).2 fname = 1) := by
  unfold move_context_file
  by_cases c1 : (List.lookup fname st.files).isNone = true
  · rw [if_pos c1]
    exact ⟨hinv, by intro h; cases h⟩
  · rw [if_neg c1]
    by_cases c2 : (!validTargets.contains target) = true
    · rw [if_pos c2]
      exact ⟨hinv, by intro h; cases h⟩
    · rw [if_neg c2]
      by_cases c3 : (List.lookup fname st.streaming_sessions).isSome = true
      · rw [if_pos c3]
        exact ⟨hinv, by intro h; cases h⟩
      · rw [if_neg c3]
        have hlooknone : List.lookup fname st.streaming_sessions = none := by
          cases h : List.lookup fname st.streaming_sessions with
          | none => rfl
          | some v => rw [h] at c3; simp at c3
        have hs0 : st.streaming_sessions.countP (fun q => q.1 == fname) = 0 :=
          scount_lookup_none fname st.streaming_sessions hlooknone
        have hfn := hinv fname
        rw [placements_def] at hfn
        have hplace : ∀ g : String,
            List.count g
                ((if st.base_context.contains fname then
                    st.base_context.erase fname else st.base_context)) +
              (((st.vectorized_files.map (fun p =>
                  (p.1, if p.2.contains fname then p.2.erase fname else p.2))).map
                (fun p => p.2.count g)).sum) +
              st.streaming_sessions.countP (fun q => q.1 == g) ≤
              (if g = fname then 0 else placements st g) := by
          intro g
          rw [guardErase_eq]
          by_cases hg : g = fname
          · subst hg
            rw [if_pos rfl, List.count_erase_self,
              vcount_remove_self g st.vectorized_files (by omega), hs0]
            omega
          · rw [if_neg hg, List.count_erase_of_ne hg,
              vcount_remove_ne fname g hg, placements_def]
        by_cases ht : target = "base_context"
        · rw [if_pos ht]
          constructor
          · intro g
            rw [placements_def]
            simp only
            rw [List.count_append]
            have := hplace g
            rw [guardErase_eq] at this ⊢
            by_cases hg : g = fname
            · subst hg
              have hcg : List.count g [g] = 1 := by simp [List.count_cons]
              rw [if_pos rfl] at this
              omega
            · have hcg : List.count g [fname] = 0 := by
                rw [List.count_eq_zero]
                simp [hg]
              rw [if_neg hg] at this
              have := hinv g
              omega
          · intro _
            rw [placements_def]
            simp only
            rw [List.count_append, guardErase_eq, List.count_erase_self,
              vcount_remove_self fname st.vectorized_files (by omega), hs0]
            have hcg : List.count fname [fname] = 1 := by simp [List.count_cons]
            omega
        · rw [if_neg ht]
          constructor
          · intro g
            rw [placements_def]
            simp only
            by_cases hg : g = fname
            · subst hg
              rw [vcount_addToCategory_self, guardErase_eq,
                List.count_erase_self,
                vcount_remove_self g st.vectorized_files (by omega), hs0]
              omega
            · rw [vcount_addToCategory_ne fname g (targetCategory target) hg,
                guardErase_eq, List.count_erase_of_ne hg,
                vcount_remove_ne fname g hg]
              have := hinv g
              rw [placements_def] at this
              omega
          · intro _
            rw [placements_def]
            simp only
            rw [vcount_addToCategory_self, guardErase_eq, List.count_erase_self,
              vcount_remove_self fname st.vectorized_files (by omega), hs0]
            omega

/-! ### Claim C9 -/

/-- Claim C9 (amended): move, delete and finalize preserve the
invariant that a filename occupies at most one placement, and an
accepted move performs removal from every prior placement before the
insertion, leaving the moved filename at exactly one placement.  Upload
does *not* preserve the invariant: it appends the uploaded filename to
the target placement without removing a prior placement elsewhere (see
the counterexample). -/
theorem corpus_ops_preserve_single_placement (st : ContextState)
    (hinv : SinglePlacement st) (fname target sid : String) :
    SinglePlacement (move_context_file st fname target).2 ∧
    SinglePlacement (delete_context_file st fname).2 ∧
    SinglePlacement (finalize_stream st sid).2 ∧
    ((move_context_file st fname target).1 = .moved target →
      placements (move_context_file st fname target).2 fname = 1) :=
  ⟨(move_preserves st hinv fname target).1, delete_preserves st hinv fname,
   finalize_preserves st hinv sid, (move_preserves st hinv fname target).2⟩

theorem corpus_ops_preserve_single_placement_witness :
    SinglePlacement (move_context_file
      ⟨[("s.txt", "sess_1")], ["a.txt"], [], [], [("a.txt", "x"), ("s.txt", "y")]⟩
      "a.txt" "vectorized:books").2 ∧
    SinglePlacement (delete_context_file
      ⟨[("s.txt", "sess_1")], ["a.txt"], [], [], [("a.txt", "x"), ("s.txt", "y")]⟩
      "a.txt").2 ∧
    SinglePlacement (finalize_stream
      ⟨[("s.txt", "sess_1")], ["a.txt"], [], [], [("a.txt", "x"), ("s.txt", "y")]⟩
      "sess_1").2 ∧
    ((move_context_file
      ⟨[("s.txt", "sess_1")], ["a.txt"], [], [], [("a.txt", "x"), ("s.txt", "y")]⟩
      "a.txt" "vectorized:books").1 = .moved "vectorized:books" →
      placements (move_context_file
        ⟨[("s.txt", "sess_1")], ["a.txt"], [], [], [("a.txt", "x"), ("s.txt", "y")]⟩
        "a.txt" "vectorized:books").2 "a.txt" = 1) :=
  corpus_ops_preserve_single_placement
    ⟨[("s.txt", "sess_1")], ["a.txt"], [], [], [("a.txt", "x"), ("s.txt", "y")]⟩
    (by
      intro f
      by_cases h1 : f = "a.txt"
      · subst h1; decide
      · by_cases h2 : f = "s.txt"
        · subst h2; decide
        · have c1 : List.count f ["a.txt"] = 0 := by
            rw [List.count_eq_zero]
            simpa using h1
          have hb : ("s.txt" == f) = false :=
            beq_eq_false_iff_ne.mpr (fun hh => h2 hh.symm)
          have c2 : List.countP (fun q => q.1 == f) [("s.txt", "sess_1")] = 0 := by
            simp [List.countP_cons, hb]
          simp [placements_def, c1, c2])
    "a.txt" "vectorized:books" "sess_1"

/-- Claim C9 counterexample: `upload_context_files` violates the
single-placement invariant.  With `a.txt` placed in the vectorized
`books` bucket, uploading a new `a.txt` with target `base_context`
appends it to `base_context` without removing it from `books`: the
filename then occupies two placements at once. -/
theorem upload_double_placement_cx :
    placements (upload_context_files
      ⟨[], [], [],
       [("transcript", []), ("books", ["a.txt"]), ("background_info", [])],
       [("a.txt", "x")]⟩
      [("a.txt", "y")] "base_context").2 "a.txt" = 2 ∧
    placements
      ⟨[], [], [],
       [("transcript", []), ("books", ["a.txt"]), ("background_info", [])],
       [("a.txt", "x")]⟩ "a.txt" = 1 ∧
    (upload_context_files
      ⟨[], [], [],
       [("transcript", []), ("books", ["a.txt"]), ("background_info", [])],
       [("a.txt", "x")]⟩
      [("a.txt", "y")] "base_context").1 = .uploaded ["a.txt"] := by
  decide

/-! ## Provider adapters — `llm_service.py`

The Perplexity message normalisation (`_generate_perplexity` 668–715),
the character-count usage estimation shared by the Grok and Perplexity
streaming loops (562–575 and 802–815), and the deferred usage accessor
of the Claude and Gemini streaming adapters (263–299 and 360–399).
The HTTP transport is external: a stream arrives as the list of its
already-decoded SSE chunks. -/

/-- One chat message (`{'role': …, 'content': …}`). -/
structure Msg where
  role : String
  content : String
  deriving DecidableEq

/-- The prepend-system loop of `_generate_perplexity` (689–697): find
the first user message and prepend the system prompt joined by a blank
line. -/
def prependSystem (system_prompt : String) : List Msg → List Msg
  | [] => []
  | m :: rest =>
    if m.role == "user" then
      { role := m.role, content := system_prompt ++ "\n\n" ++ m.content } :: rest
    else m :: prependSystem system_prompt rest

/-- One iteration of the merge loop (707–713): merge into the last
element of `cleaned_messages` when the roles coincide, else append. -/
def mergeStep (cleaned : List Msg) (msg : Msg) : List Msg :=
  match cleaned.getLast? with
  | some last =>
    if last.role == msg.role then
      cleaned.dropLast ++
        [{ role := last.role, content := last.content ++ "\n\n" ++ msg.content }]
    else cleaned ++ [msg]
  | none => [msg]

/-- The merge loop over the whole message list. -/
def mergeConsecutive (ms : List Msg) : List Msg := ms.foldl mergeStep []

/-- The Perplexity message normalisation (`_generate_perplexity`
668–715): UTF-8 re-encode (identity on text), prepend the system prompt
to the first user message when both exist, pop leading assistant
messages, merge consecutive same-role messages. -/
def perplexityPrepare (messages : List Msg) (system_prompt : String) : List Msg :=
  let formatted := messages
  let formatted :=
    if 0 < system_prompt.length ∧ 0 < formatted.length then
      prependSystem system_prompt formatted
    else formatted
  let formatted := formatted.dropWhile (fun m => m.role == "assistant")
  mergeConsecutive formatted

/-- One decoded `data:` chunk of the OpenAI-style stream: an optional
`choices[0].delta.content` and an optional `usage` object. -/
structure StreamChunk where
  delta : Option String
  usage : Option (Nat × Nat)
  deriving DecidableEq

/-- The `usage_data` dict of the streaming adapters. -/
structure UsageData where
  input_tokens : Nat
  output_tokens : Nat
  cache_creation_tokens : Nat
  cache_read_tokens : Nat
  captured : Bool
  deriving DecidableEq

/-- `usage_data` as initialised before the stream starts. -/
def initUsage : UsageData := ⟨0, 0, 0, 0, false⟩

/-- One iteration of the Grok/Perplexity chunk loop: emit the delta
content (tracking `output_chars`), then capture usage if the chunk
carries a `usage` object. -/
def streamChunkStep (s : UsageData × Nat × String) (c : StreamChunk) :
    UsageData × Nat × String :=
  let s1 := match c.delta with
    | some content => (s.1, s.2.1 + content.length, s.2.2 ++ content)
    | none => s
  match c.usage with
  | some pc =>
    ({ input_tokens := pc.1, output_tokens := pc.2
       cache_creation_tokens := s1.1.cache_creation_tokens
       cache_read_tokens := s1.1.cache_read_tokens
       captured := true }, s1.2)
  | none => s1

/-- What one full run of the streaming loop leaves behind: the value
`get_usage()` returns after the stream is drained, whether the
`(estimated)` fallback branch ran, and the emitted text. -/
structure StreamOutcome where
  usage : Option UsageData
  estimated : Bool
  emitted : String
  deriving DecidableEq

/-- The Grok/Perplexity streaming loop plus its post-loop fallback: if
no usage was captured and output was emitted, estimate both sides with
the `max(1, chars // 4)` heuristic and mark the result estimated. -/
def streamBody (chunks : List StreamChunk) (input_chars : Nat) : StreamOutcome :=
  let s := chunks.foldl streamChunkStep (initUsage, 0, "")
  if ¬s.1.captured ∧ s.2.1 > 0 then
    { usage := some
        { input_tokens := max 1 (input_chars / 4)
          output_tokens := max 1 (s.2.1 / 4)
          cache_creation_tokens := 0
          cache_read_tokens := 0
          captured := true }
      estimated := true
      emitted := s.2.2 }
  else
    { usage := if s.1.captured then some s.1 else none
      estimated := false
      emitted := s.2.2 }

/-- `input_chars`: the content lengths of the outgoing messages, plus
the system prompt's length again when it is nonempty. -/
def inputChars (formatted : List Msg) (system_prompt : String) : Nat :=
  (formatted.map (fun m => m.content.length)).sum +
    (if 0 < system_prompt.length then system_prompt.length else 0)

/-- The Perplexity streaming call: the loop runs over the chunks, with
`formatted_messages` the normalised messages. -/
def perplexityStream (messages : List Msg) (system_prompt : String)
    (chunks : List StreamChunk) : StreamOutcome :=
  streamBody chunks
    (inputChars (perplexityPrepare messages system_prompt) system_prompt)

/-- Grok's outgoing messages: a system message (when the prompt is
nonempty) followed by the conversation. -/
def grokMessages (messages : List Msg) (system_prompt : String) : List Msg :=
  (if 0 < system_prompt.length then [⟨"system", system_prompt⟩] else []) ++
    messages

/-- The Grok streaming call. -/
def grokStream (messages : List Msg) (system_prompt : String)
    (chunks : List StreamChunk) : StreamOutcome :=
  streamBody chunks
    (inputChars (grokMessages messages system_prompt) system_prompt)

/-- Total characters a chunk list emits. -/
def emittedChars (chunks : List StreamChunk) : Nat :=
  (chunks.map (fun c => (c.delta.getD "").length)).sum

/-! ### Generator traces for the usage accessor (claim C8)

A Python generator suspends *at* each `yield`: pulling the k-th item
executes the body up to and including the k-th yield; the code after it
runs only when the consumer asks for the next item.  A streaming
adapter's body is flattened into its sequence of observable actions
(yields and `usage_data` captures), and partial consumption is the
executed prefix. -/

/-- An observable action of a streaming generator body. -/
inductive GenEvent where
  | tok (s : String)
  | cap (u : UsageData)
  deriving DecidableEq

/-- The Claude streaming body (`_generate_claude` 267–294): yield every
text of `stream.text_stream`, then — after the loop — read
`get_final_message()` and capture its usage, if any. -/
def claudeTrace (texts : List String) (finalUsage : Option UsageData) :
    List GenEvent :=
  texts.map GenEvent.tok ++
    (match finalUsage with
     | some u => [GenEvent.cap u]
     | none => [])

/-- One chunk of the Gemini stream: its text and optional
`usage_metadata`. -/
structure GChunk where
  text : String
  usage : Option (Nat × Nat)
  deriving DecidableEq

/-- The Gemini streaming body (`_generate_gemini` 370–394): per chunk,
yield the text if nonempty, then capture `usage_metadata` if present —
inside the loop, so a capture can precede later yields. -/
def geminiTrace (chunks : List GChunk) : List GenEvent :=
  (chunks.map (fun c =>
    (if c.text = "" then [] else [GenEvent.tok c.text]) ++
    (match c.usage with
     | some pc => [GenEvent.cap ⟨pc.1, pc.2, 0, 0, true⟩]
     | none => []))).flatten

/-- The actions executed once the consumer has pulled `k` items. -/
def takeToYield : Nat → List GenEvent → List GenEvent
  | _, [] => []
  | 0, _ => []
  | k + 1, GenEvent.tok s :: rest => GenEvent.tok s :: takeToYield k rest
  | k + 1, GenEvent.cap u :: rest => GenEvent.cap u :: takeToYield (k + 1) rest

/-- What `get_usage()` returns after a list of actions has executed:
the last captured usage, or nothing (`captured` still false). -/
def lastCap : List GenEvent → Option UsageData
  | [] => none
  | GenEvent.tok _ :: rest => lastCap rest
  | GenEvent.cap u :: rest => some ((lastCap rest).getD u)

/-- The number of items a trace yields. -/
def numToks (tr : List GenEvent) : Nat :=
  tr.countP (fun e => match e with | GenEvent.tok _ => true | _ => false)

/-! ### Perplexity adapter lemmas (claim C6) -/

/-- A conversation role as the orchestrator produces it. -/
def RoleOk (m : Msg) : Prop := m.role = "user" ∨ m.role = "assistant"

theorem chain'_replace_last {α : Type} (R : α → α → Prop) (l : List α) (x last : α)
    (hl : l.getLast? = some last) (hch : List.Chain' R l)
    (hx : ∀ y, R y last → R y x) : List.Chain' R (l.dropLast ++ [x]) := by
  have hdecomp : l.dropLast ++ [last] = l := List.dropLast_append_getLast? last hl
  rw [← hdecomp] at hch
  rw [List.chain'_append] at hch
  obtain ⟨h1, _, h3⟩ := hch
  rw [List.chain'_append]
  refine ⟨h1, List.chain'_singleton x, ?_⟩
  intro y hy z hz
  simp only [List.head?_cons, Option.mem_def, Option.some.injEq] at hz
  subst hz
  exact hx y (h3 y hy last (by simp))

theorem mergeStep_props (acc : List Msg) (m : Msg)
    (hacc : ∀ x ∈ acc, RoleOk x) (hm : RoleOk m)
    (hch : acc.Chain' (fun a b => a.role ≠ b.role)) :
    (∀ x ∈ mergeStep acc m, RoleOk x) ∧
    (mergeStep acc m).Chain' (fun a b => a.role ≠ b.role) ∧
    (∀ h, acc.head? = some h →
      ∃ h', (mergeStep acc m).head? = some h' ∧ h'.role = h.role) := by
  unfold mergeStep
  cases hlast : acc.getLast? with
  | none =>
    have hnil : acc = [] := List.getLast?_eq_none_iff.mp hlast
    subst hnil
    refine ⟨?_, List.chain'_singleton m, ?_⟩
    · intro x hx
      rw [List.mem_singleton] at hx
      subst hx
      exact hm
    · intro h hh
      simp at hh
  | some last =>
    have hlastmem : last ∈ acc := List.mem_of_mem_getLast? hlast
    dsimp only
    by_cases hrole : (last.role == m.role) = true
    · rw [if_pos hrole]
      refine ⟨?_, ?_, ?_⟩
      · intro x hx
        rcases List.mem_append.mp hx with hx | hx
        · exact hacc x (List.Sublist.mem hx (List.dropLast_sublist acc))
        · rw [List.mem_singleton] at hx
          subst hx
          exact hacc last hlastmem
      · exact chain'_replace_last _ acc _ last hlast hch (fun y hy => hy)
      · intro h hh
        cases acc with
        | nil => simp at hh
        | cons a rest =>
          simp only [List.head?_cons, Option.some.injEq] at hh
          cases rest with
          | nil =>
            have hla : a = last := by simpa using hlast
            refine ⟨{ role := last.role
                      content := last.content ++ "\n\n" ++ m.content }, rfl, ?_⟩
            rw [← hla, hh]
          | cons b t =>
            refine ⟨a, ?_, by rw [hh]⟩
            rw [List.dropLast_cons₂, List.cons_append, List.head?_cons]
    · rw [if_neg hrole]
      refine ⟨?_, ?_, ?_⟩
      · intro x hx
        rcases List.mem_append.mp hx with hx | hx
        · exact hacc x hx
        · rw [List.mem_singleton] at hx
          subst hx
          exact hm
      · rw [List.chain'_append]
        refine ⟨hch, List.chain'_singleton m, ?_⟩
        intro y hy z hz
        simp only [List.head?_cons, Option.mem_def, Option.some.injEq] at hz
        subst hz
        have hy' : last = y := by
          rw [hlast] at hy
          simpa using hy
        rw [← hy']
        simpa using hrole
      · intro h hh
        cases acc with
        | nil => simp at hh
        | cons a rest =>
          simp only [List.head?_cons, Option.some.injEq] at hh
          exact ⟨a, by rw [List.cons_append, List.head?_cons], by rw [hh]⟩

theorem mergeFold_props (ms : List Msg) :
    ∀ acc : List Msg, (∀ x ∈ acc, RoleOk x) → (∀ x ∈ ms, RoleOk x) →
    acc.Chain' (fun a b => a.role ≠ b.role) →
    (∀ x ∈ ms.foldl mergeStep acc, RoleOk x) ∧
    (ms.foldl mergeStep acc).Chain' (fun a b => a.role ≠ b.role) ∧
    (∀ h, acc.head? = some h →
      ∃ h', (ms.foldl mergeStep acc).head? = some h' ∧ h'.role = h.role) := by
  induction ms with
  | nil =>
    intro acc h1 _ h3
    exact ⟨h1, h3, fun h hh => ⟨h, hh, rfl⟩⟩
  | cons m rest ih =>
    intro acc h1 h2 h3
    have hm := h2 m (List.mem_cons_self m rest)
    obtain ⟨p1, p2, p3⟩ := mergeStep_props acc m h1 hm h3
    obtain ⟨q1, q2, q3⟩ :=
      ih (mergeStep acc m) p1 (fun x hx => h2 x (List.mem_cons_of_mem m hx)) p2
    rw [List.foldl_cons]
    refine ⟨q1, q2, ?_⟩
    intro h hh
    obtain ⟨h', hh', hr⟩ := p3 h hh
    obtain ⟨h'', hh'', hr'⟩ := q3 h' hh'
    exact ⟨h'', hh'', hr'.trans hr⟩

theorem prependSystem_roles (s : String) :
    ∀ ms : List Msg, (∀ x ∈ ms, RoleOk x) →
    ∀ x ∈ prependSystem s ms, RoleOk x := by
  intro ms
  induction ms with
  | nil => intro _ x hx; cases hx
  | cons m rest ih =>
    intro hall x hx
    rw [prependSystem] at hx
    by_cases hu : (m.role == "user") = true
    · rw [if_pos hu] at hx
      rcases List.mem_cons.mp hx with hx | hx
      · subst hx
        exact hall m (List.mem_cons_self m rest)
      · exact hall x (List.mem_cons_of_mem m hx)
    · rw [if_neg hu] at hx
      rcases List.mem_cons.mp hx with hx | hx
      · subst hx
        exact hall x (List.mem_cons_self x rest)
      · exact ih (fun y hy => hall y (List.mem_cons_of_mem m hy)) x hx

theorem head?_dropWhile_false {α : Type} (p : α → Bool) :
    ∀ (l : List α) (h : α), (l.dropWhile p).head? = some h → p h = false := by
  intro l
  induction l with
  | nil => intro h hh; simp [List.dropWhile] at hh
  | cons a rest ih =>
    intro h hh
    rw [List.dropWhile_cons] at hh
    by_cases hp : p a = true
    · rw [if_pos hp] at hh
      exact ih h hh
    · rw [if_neg hp] at hh
      simp only [List.head?_cons, Option.some.injEq] at hh
      subst hh
      exact Bool.eq_false_iff.mpr hp

/-! ### Claim C6 -/

/-- Claim C6 (confirmed): the Perplexity adapter, for every history of
user/assistant turns and nonempty systemText, sends messages with no
system-role entry, with any leading assistant turns dropped (the first
outgoing message, if any, is a user turn) and consecutive same-role
turns merged (adjacent outgoing messages always differ in role); in
particular `[{user,"hi"}]` with systemText `"SYS"` produces the single
message `{user, "SYS\n\nhi"}`, and `[{assistant,"x"},{user,"a"},
{user,"b"}]` loses the leading assistant and merges the two user turns
(with the prompt prepended to the first user turn, blank-line joins
throughout). -/
theorem perplexity_adapter (messages : List Msg) (system_prompt : String)
    (hroles : ∀ m ∈ messages, m.role = "user" ∨ m.role = "assistant") :
    (∀ m ∈ perplexityPrepare messages system_prompt, m.role ≠ "system") ∧
    (∀ h, (perplexityPrepare messages system_prompt).head? = some h →
      h.role = "user") ∧
    List.Chain' (fun a b => a.role ≠ b.role)
      (perplexityPrepare messages system_prompt) ∧
    perplexityPrepare [⟨"user", "hi"⟩] "SYS" = [⟨"user", "SYS\n\nhi"⟩] ∧
    perplexityPrepare [⟨"assistant", "x"⟩, ⟨"user", "a"⟩, ⟨"user", "b"⟩] "SYS" =
      [⟨"user", "SYS\n\na\n\nb"⟩] := by
  have hr1 : ∀ x ∈ (if 0 < system_prompt.length ∧ 0 < messages.length then
      prependSystem system_prompt messages else messages), RoleOk x := by
    split
    · exact prependSystem_roles system_prompt messages hroles
    · exact hroles
  have hr2 : ∀ x ∈ ((if 0 < system_prompt.length ∧ 0 < messages.length then
      prependSystem system_prompt messages else messages).dropWhile
        (fun m => m.role == "assistant")), RoleOk x :=
    fun x hx => hr1 x (List.Sublist.mem hx (List.dropWhile_sublist _))
  obtain ⟨q1, q2, _⟩ := mergeFold_props
    ((if 0 < system_prompt.length ∧ 0 < messages.length then
      prependSystem system_prompt messages else messages).dropWhile
        (fun m => m.role == "assistant")) [] (by intro x hx; cases hx) hr2
    List.chain'_nil
  refine ⟨?_, ?_, q2, by decide, by decide⟩
  · intro m hm
    rcases q1 m hm with h | h <;> rw [h] <;> decide
  · intro h hh
    cases hl2 : ((if 0 < system_prompt.length ∧ 0 < messages.length then
        prependSystem system_prompt messages else messages).dropWhile
          (fun m => m.role == "assistant")) with
    | nil =>
      rw [show perplexityPrepare messages system_prompt =
          mergeConsecutive ((if 0 < system_prompt.length ∧ 0 < messages.length then
            prependSystem system_prompt messages else messages).dropWhile
              (fun m => m.role == "assistant")) from rfl, hl2] at hh
      simp [mergeConsecutive] at hh
    | cons m rest =>
      have hm : RoleOk m := by
        rw [hl2] at hr2
        exact hr2 m (List.mem_cons_self m rest)
      have hnotass : (m.role == "assistant") = false := by
        refine head?_dropWhile_false (fun m => m.role == "assistant")
          ((if 0 < system_prompt.length ∧ 0 < messages.length then
            prependSystem system_prompt messages else messages)) m ?_
        rw [hl2, List.head?_cons]
      have huser : m.role = "user" := by
        rcases hm with h | h
        · exact h
        · rw [h] at hnotass
          simp at hnotass
      obtain ⟨_, _, q3'⟩ := mergeFold_props rest [m]
        (by
          intro x hx
          rw [List.mem_singleton] at hx
          subst hx
          exact hm)
        (by
          intro x hx
          rw [hl2] at hr2
          exact hr2 x (List.mem_cons_of_mem m hx))
        (List.chain'_singleton m)
      obtain ⟨h', hh', hr'⟩ := q3' m rfl
      have : perplexityPrepare messages system_prompt =
          List.foldl mergeStep (mergeStep [] m) rest := by
        rw [show perplexityPrepare messages system_prompt =
            mergeConsecutive ((if 0 < system_prompt.length ∧ 0 < messages.length
              then prependSystem system_prompt messages
              else messages).dropWhile (fun m => m.role == "assistant")) from rfl,
          hl2, mergeConsecutive, List.foldl_cons]
      rw [this] at hh
      have hms : mergeStep [] m = [m] := rfl
      rw [hms] at hh
      rw [hh] at hh'
      injection hh' with hh'
      rw [hh', hr', huser]

theorem perplexity_adapter_witness :
    (∀ m ∈ perplexityPrepare [⟨"assistant", "x"⟩, ⟨"user", "a"⟩, ⟨"user", "b"⟩]
        "SYS", m.role ≠ "system") ∧
    (∀ h, (perplexityPrepare [⟨"assistant", "x"⟩, ⟨"user", "a"⟩, ⟨"user", "b"⟩]
        "SYS").head? = some h → h.role = "user") ∧
    List.Chain' (fun a b => a.role ≠ b.role)
      (perplexityPrepare [⟨"assistant", "x"⟩, ⟨"user", "a"⟩, ⟨"user", "b"⟩] "SYS") ∧
    perplexityPrepare [⟨"user", "hi"⟩] "SYS" = [⟨"user", "SYS\n\nhi"⟩] ∧
    perplexityPrepare [⟨"assistant", "x"⟩, ⟨"user", "a"⟩, ⟨"user", "b"⟩] "SYS" =
      [⟨"user", "SYS\n\na\n\nb"⟩] :=
  perplexity_adapter [⟨"assistant", "x"⟩, ⟨"user", "a"⟩, ⟨"user", "b"⟩] "SYS"
    (by decide)

/-! ### Claim C7 -/

theorem streamFold_no_usage (chunks : List StreamChunk) :
    ∀ s : UsageData × Nat × String, (∀ c ∈ chunks, c.usage = none) →
    (chunks.foldl streamChunkStep s).1 = s.1 ∧
    (chunks.foldl streamChunkStep s).2.1 = s.2.1 + emittedChars chunks := by
  induction chunks with
  | nil => intro s _; simp [emittedChars]
  | cons c rest ih =>
    intro s hnone
    have hc : c.usage = none := hnone c (List.mem_cons_self c rest)
    rw [List.foldl_cons]
    have hstep : (streamChunkStep s c).1 = s.1 ∧
        (streamChunkStep s c).2.1 = s.2.1 + (c.delta.getD "").length := by
      unfold streamChunkStep
      rw [hc]
      cases hd : c.delta
      · simp
      · simp
    obtain ⟨ih1, ih2⟩ :=
      ih (streamChunkStep s c) (fun x hx => hnone x (List.mem_cons_of_mem c hx))
    have hech : emittedChars (c :: rest) =
        (c.delta.getD "").length + emittedChars rest := by
      simp [emittedChars]
    refine ⟨by rw [ih1, hstep.1], ?_⟩
    rw [ih2, hstep.2]
    omega

theorem streamBody_estimates (chunks : List StreamChunk) (ic : Nat)
    (hnouse : ∀ c ∈ chunks, c.usage = none) (hemit : 0 < emittedChars chunks) :
    (streamBody chunks ic).usage =
      some ⟨max 1 (ic / 4), max 1 (emittedChars chunks / 4), 0, 0, true⟩ ∧
    (streamBody chunks ic).estimated = true := by
  obtain ⟨h1, h2⟩ := streamFold_no_usage chunks (initUsage, 0, "") hnouse
  have hcap : (chunks.foldl streamChunkStep (initUsage, 0, "")).1.captured = false := by
    rw [h1]
    rfl
  have hout : (chunks.foldl streamChunkStep (initUsage, 0, "")).2.1 =
      emittedChars chunks := by
    rw [h2]
    simp [initUsage]
  have hcond : ¬(chunks.foldl streamChunkStep (initUsage, 0, "")).1.captured = true ∧
      (chunks.foldl streamChunkStep (initUsage, 0, "")).2.1 > 0 := by
    constructor
    · rw [hcap]
      simp
    · omega
  simp only [streamBody]
  rw [if_pos hcond, hout]
  exact ⟨rfl, rfl⟩

/-- Claim C7 (confirmed): when a streaming provider reports no usage in
any chunk and at least one output character was emitted, both the Grok
and the Perplexity adapter estimate output tokens as
`max(1, output_chars // 4)` from the emitted characters and input
tokens as `max(1, input_chars // 4)` from the materialised input
characters, and the estimate is marked as such (the `(estimated)`
branch runs).  The witness instantiates a stream emitting `"abcdef"`:
the estimated output token count is exactly `max(1, 6 // 4) = 1`. -/
theorem stream_usage_estimation (messages : List Msg) (system_prompt : String)
    (chunks : List StreamChunk)
    (hnouse : ∀ c ∈ chunks, c.usage = none)
    (hemit : 0 < emittedChars chunks) :
    (perplexityStream messages system_prompt chunks).usage =
      some ⟨max 1 (inputChars (perplexityPrepare messages system_prompt)
              system_prompt / 4),
            max 1 (emittedChars chunks / 4), 0, 0, true⟩ ∧
    (perplexityStream messages system_prompt chunks).estimated = true ∧
    (grokStream messages system_prompt chunks).usage =
      some ⟨max 1 (inputChars (grokMessages messages system_prompt)
              system_prompt / 4),
            max 1 (emittedChars chunks / 4), 0, 0, true⟩ ∧
    (grokStream messages system_prompt chunks).estimated = true := by
  obtain ⟨p1, p2⟩ := streamBody_estimates chunks
    (inputChars (perplexityPrepare messages system_prompt) system_prompt)
    hnouse hemit
  obtain ⟨g1, g2⟩ := streamBody_estimates chunks
    (inputChars (grokMessages messages system_prompt) system_prompt)
    hnouse hemit
  exact ⟨p1, p2, g1, g2⟩

theorem stream_usage_estimation_witness :
    ((perplexityStream [⟨"user", "hi"⟩] "SYS"
        [⟨some "abc", none⟩, ⟨some "def", none⟩]).usage =
      some ⟨max 1 (inputChars (perplexityPrepare [⟨"user", "hi"⟩] "SYS")
              "SYS" / 4),
            max 1 (emittedChars [⟨some "abc", none⟩, ⟨some "def", none⟩] / 4),
            0, 0, true⟩ ∧
    (perplexityStream [⟨"user", "hi"⟩] "SYS"
        [⟨some "abc", none⟩, ⟨some "def", none⟩]).estimated = true ∧
    (grokStream [⟨"user", "hi"⟩] "SYS"
        [⟨some "abc", none⟩, ⟨some "def", none⟩]).usage =
      some ⟨max 1 (inputChars (grokMessages [⟨"user", "hi"⟩] "SYS") "SYS" / 4),
            max 1 (emittedChars [⟨some "abc", none⟩, ⟨some "def", none⟩] / 4),
            0, 0, true⟩ ∧
    (grokStream [⟨"user", "hi"⟩] "SYS"
        [⟨some "abc", none⟩, ⟨some "def", none⟩]).estimated = true) ∧
    max 1 (emittedChars [⟨some "abc", none⟩, ⟨some "def", none⟩] / 4) = 1 :=
  ⟨stream_usage_estimation [⟨"user", "hi"⟩] "SYS"
    [⟨some "abc", none⟩, ⟨some "def", none⟩] (by decide) (by decide),
   by decide⟩

/-! ### Claim C8 -/

theorem takeToYield_all_toks (texts : List String) :
    ∀ (k : Nat) (rest : List GenEvent), k ≤ texts.length →
    takeToYield k (texts.map GenEvent.tok ++ rest) =
      (texts.take k).map GenEvent.tok := by
  induction texts with
  | nil =>
    intro k rest hk
    have hk0 : k = 0 := by simpa using hk
    subst hk0
    cases rest <;> rfl
  | cons t ts ih =>
    intro k rest hk
    cases k with
    | zero => rfl
    | succ k' =>
      simp only [List.map_cons, List.cons_append, takeToYield, List.take_succ_cons,
        List.append_eq]
      rw [ih k' rest (by simpa using hk)]

theorem lastCap_toks (l : List String) : lastCap (l.map GenEvent.tok) = none := by
  induction l with
  | nil => rfl
  | cons t ts ih => simpa [lastCap] using ih

theorem lastCap_append (a b : List GenEvent) :
    lastCap (a ++ b) = (lastCap b).or (lastCap a) := by
  induction a with
  | nil => cases hb : lastCap b <;> simp [Option.or, hb, lastCap]
  | cons x rest ih =>
    cases x with
    | tok s => simpa [lastCap] using ih
    | cap u =>
      rw [List.cons_append, lastCap, lastCap, ih]
      cases hb : lastCap b <;> cases ha : lastCap rest <;> simp [Option.or]

theorem takeToYield_mem :
    ∀ (tr : List GenEvent) (j : Nat) (e : GenEvent),
    e ∈ takeToYield j tr → e ∈ tr := by
  intro tr
  induction tr with
  | nil =>
    intro j e he
    cases j <;> simp [takeToYield] at he
  | cons x rest ih =>
    intro j e he
    cases j with
    | zero => simp [takeToYield] at he
    | succ j' =>
      cases x with
      | tok s =>
        simp only [takeToYield] at he
        rcases List.mem_cons.mp he with he | he
        · subst he
          exact List.mem_cons_self _ _
        · exact List.mem_cons_of_mem _ (ih j' e he)
      | cap u =>
        simp only [takeToYield] at he
        rcases List.mem_cons.mp he with he | he
        · subst he
          exact List.mem_cons_self _ _
        · exact List.mem_cons_of_mem _ (ih (j' + 1) e he)

theorem lastCap_of_no_cap :
    ∀ tr : List GenEvent, (∀ e ∈ tr, ∀ u, e ≠ GenEvent.cap u) →
    lastCap tr = none := by
  intro tr
  induction tr with
  | nil => intro _; rfl
  | cons x rest ih =>
    intro h
    cases x with
    | tok s =>
      rw [lastCap]
      exact ih (fun e he u => h e (List.mem_cons_of_mem _ he) u)
    | cap u => exact absurd rfl (h (GenEvent.cap u) (List.mem_cons_self _ _) u)

theorem geminiTrace_no_cap (chunks : List GChunk)
    (h : ∀ c ∈ chunks, c.usage = none) :
    ∀ e ∈ geminiTrace chunks, ∀ u, e ≠ GenEvent.cap u := by
  intro e he u hecap
  subst hecap
  unfold geminiTrace at he
  rw [List.mem_flatten] at he
  obtain ⟨s, hs, hes⟩ := he
  rw [List.mem_map] at hs
  obtain ⟨c, hc, rfl⟩ := hs
  rw [h c hc] at hes
  by_cases ht : c.text = ""
  · simp [ht] at hes
  · simp [ht] at hes

/-- Claim C8 (amended): for the Claude streaming adapter the usage
accessor yields nothing before the token stream is fully consumed —
after any number of pulled tokens, up to and including the last one,
the capture after the yield loop has not run — and after full
consumption it yields exactly the usage of the final message (nothing
if none was observed).  For the Gemini adapter the accessor yields
nothing as long as no usage-bearing chunk has been processed; but it
captures usage *inside* the chunk loop, so it can return a value before
the stream is fully consumed (see the counterexample), which is why the
claim's "for every streaming adapter" fails. -/
theorem claude_usage_accessor (texts : List String) (mu : Option UsageData)
    (k : Nat) (hk : k ≤ texts.length) :
    lastCap (takeToYield k (claudeTrace texts mu)) = none ∧
    lastCap (claudeTrace texts mu) = mu ∧
    (∀ chunks : List GChunk, (∀ c ∈ chunks, c.usage = none) →
      ∀ j, lastCap (takeToYield j (geminiTrace chunks)) = none) := by
  refine ⟨?_, ?_, ?_⟩
  · rw [show claudeTrace texts mu = texts.map GenEvent.tok ++
        (match mu with
         | some u => [GenEvent.cap u]
         | none => []) from rfl,
      takeToYield_all_toks texts k _ hk]
    exact lastCap_toks _
  · cases mu with
    | none =>
      show lastCap (texts.map GenEvent.tok ++ []) = none
      rw [List.append_nil]
      exact lastCap_toks texts
    | some u =>
      show lastCap (texts.map GenEvent.tok ++ [GenEvent.cap u]) = some u
      rw [lastCap_append, lastCap_toks]
      rfl
  · intro chunks hno j
    exact lastCap_of_no_cap _
      (fun e he u => geminiTrace_no_cap chunks hno e (takeToYield_mem _ j e he) u)

theorem claude_usage_accessor_witness :
    lastCap (takeToYield 1 (claudeTrace ["x", "y"] (some ⟨3, 7, 0, 0, true⟩))) =
      none ∧
    lastCap (claudeTrace ["x", "y"] (some ⟨3, 7, 0, 0, true⟩)) =
      some ⟨3, 7, 0, 0, true⟩ ∧
    (∀ chunks : List GChunk, (∀ c ∈ chunks, c.usage = none) →
      ∀ j, lastCap (takeToYield j (geminiTrace chunks)) = none) :=
  claude_usage_accessor ["x", "y"] (some ⟨3, 7, 0, 0, true⟩) 1 (by decide)

/-- Claim C8 counterexample: the Gemini adapter's accessor can yield a
usage value before the stream is fully consumed.  With chunks
`[("a", usage 5/7), ("b", −), ("c", −)]`, pulling the second token
resumes the generator past the first chunk's capture, so after two of
three tokens the accessor already returns the usage. -/
theorem gemini_usage_early_cx :
    lastCap (takeToYield 2 (geminiTrace
      [⟨"a", some (5, 7)⟩, ⟨"b", none⟩, ⟨"c", none⟩])) =
      some ⟨5, 7, 0, 0, true⟩ ∧
    2 < numToks (geminiTrace [⟨"a", some (5, 7)⟩, ⟨"b", none⟩, ⟨"c", none⟩]) := by
  decide

end ConfAI
